import Mathlib

/-!
# Verification of the callcase-agent reconciliation pipeline

Shallow embedding, in Lean 4, of the core record-reconciliation pipeline of
the `callcase-agent` repository:

* `normalizeAccountName` (`src/providers/account-utils.ts`),
* the account matcher `matchSharedAccounts` (`src/webapp/account-matcher.ts`),
* the call deduplicator `dedupeCalls` (`src/pipeline/dedupe.ts`),
* the evidence validator of `QuoteExtractor.extractFromCalls`
  (`src/pipeline/quotes.ts`),
* the fuzzy account resolver `resolveSelectedAccount` (`src/mcp/server.ts`),

followed by theorems settling the behavioural claims about these functions.

Modelling conventions, used throughout:

* JavaScript strings are modelled as Lean `String`; all concrete inputs in
  this development are ASCII, where `Char.toLower`, `String.trim`,
  whitespace splitting and lexicographic comparison agree with the
  JavaScript `toLowerCase`, `trim`, `\s` and code-unit `<`/`<=` semantics.
  `localeCompare` (used only for display ordering / tie-breaks) is modelled
  by the lexicographic order as well.
* JavaScript numbers used for scores and similarity ratios are modelled as
  `ℚ` (every constant and operation involved is exact in binary or is a
  ratio of small integers; no rounding behaviour is load-bearing).
* `Array.prototype.sort` (stable since ES2019) is modelled by a stable
  insertion sort with the same comparator.
* JavaScript `Map` (insertion-ordered, `set` on an existing key replaces the
  value in place) is modelled by an association list with an
  insert-or-replace operation.
-/

namespace CallCase

/-! ## String utilities shared by the pipeline

Implemented by structural recursion over the character list of a `String`
(rather than via the runtime-oriented `String` API) so that every
definition evaluates inside the kernel on concrete inputs. -/

/-- ASCII lower-casing of one character (JavaScript `toLowerCase` restricted
to the ASCII inputs used throughout). -/
def charToLower (c : Char) : Char :=
  if 'A' ≤ c && c ≤ 'Z' then Char.ofNat (c.toNat + 32) else c

/-- `toLowerCase`. -/
def lowerStr (s : String) : String :=
  String.mk (s.data.map charToLower)

/-- Code-unit lexicographic strict comparison, the JavaScript `<`/`>` on
strings (and the order `localeCompare` induces on the ASCII data here). -/
def listStrLt : List Char → List Char → Bool
  | [], [] => false
  | [], _ :: _ => true
  | _ :: _, [] => false
  | a :: as_, b :: bs =>
    if a.toNat < b.toNat then true
    else if b.toNat < a.toNat then false
    else listStrLt as_ bs

/-- JavaScript `a < b` on strings. -/
def strLt (a b : String) : Bool :=
  listStrLt a.data b.data

/-- `[a-z0-9]`: the characters kept by the sanitising regexes (which run on
already-lower-cased text). -/
def isAlnumLower (c : Char) : Bool :=
  ('a' ≤ c && c ≤ 'z') || ('0' ≤ c && c ≤ '9')

/-- Model of the JavaScript `\s` class (ASCII part). -/
def isWs (c : Char) : Bool :=
  c = ' ' || c = '\t' || c = '\n' || c = '\r'

/-- JavaScript `trim` (ASCII whitespace). -/
def strTrim (s : String) : String :=
  String.mk (((s.data.dropWhile isWs).reverse.dropWhile isWs).reverse)

/-- Helper of `wordsOf`: split the remaining characters at whitespace,
`cur` holding the reversed characters of the chunk being read. -/
def wordsOfAux (cur : List Char) : List Char → List String
  | [] => if cur = [] then [] else [String.mk cur.reverse]
  | c :: cs =>
    if isWs c then
      if cur = [] then wordsOfAux [] cs
      else String.mk cur.reverse :: wordsOfAux [] cs
    else wordsOfAux (c :: cur) cs

/-- Maximal whitespace-free chunks of a string (empty chunks dropped), i.e.
the tokens observed after a `\s+` split. -/
def wordsOf (s : String) : List String :=
  wordsOfAux [] s.data

/-- Join with a separator (`Array.prototype.join` / re-interspersing the
chunks of a split). -/
def joinWith (sep : String) : List String → String
  | [] => ""
  | [w] => w
  | w :: ws => w ++ sep ++ joinWith sep ws

/-- `text.replace(/\s+/g, " ").trim()`: collapse whitespace runs to single
spaces and trim. -/
def collapseWs (s : String) : String :=
  joinWith " " (wordsOf s)

/-- `normalize` from `src/pipeline/quotes.ts`:
`text.replace(/\s+/g, " ").trim().toLowerCase()`. -/
def normalizeQ (text : String) : String :=
  lowerStr (collapseWs text)

/-- Helper of `splitOnSpace`. -/
def splitOnSpaceAux (cur : List Char) : List Char → List String
  | [] => [String.mk cur.reverse]
  | c :: cs =>
    if c = ' ' then String.mk cur.reverse :: splitOnSpaceAux [] cs
    else splitOnSpaceAux (c :: cur) cs

/-- JavaScript `s.split(" ")`: cut at every single space, keeping empty
chunks. -/
def splitOnSpace (s : String) : List String :=
  splitOnSpaceAux [] s.data

/-- `needle` occurs as a contiguous sublist of `hay`. -/
def listIsInfixOf (needle hay : List Char) : Bool :=
  needle.isPrefixOf hay ||
    match hay with
    | [] => false
    | _ :: t => listIsInfixOf needle t

/-- JavaScript `hay.includes(needle)` (substring test). -/
def strIncludes (hay needle : String) : Bool :=
  listIsInfixOf needle.data hay.data

/-! ## Name Normalizer (`src/providers/account-utils.ts`) -/

/-- The alternatives of the `COMMON_SUFFIXES` regex
`/\b(inc|inc\.|llc|l\.l\.c\.|ltd|ltd\.|corp|corp\.|corporation|company|co\.|plc|gmbh|s\.a\.|sa|pte|pty)\b/gi`,
verbatim.  In `normalizeAccountName` this regex is applied *after*
`[^a-z0-9\s]` characters have been replaced by spaces, so its input consists
of `[a-z0-9]` tokens separated by whitespace; on such input a `\b…\b`
alternation match is exactly a whole token equal to one of the alternatives,
and the alternatives containing a literal `.` can never match. -/
def COMMON_SUFFIXES : List String :=
  ["inc", "inc.", "llc", "l.l.c.", "ltd", "ltd.", "corp", "corp.",
   "corporation", "company", "co.", "plc", "gmbh", "s.a.", "sa", "pte", "pty"]

/-- `.replace(/&/g, " and ")`. -/
def expandAmp (cs : List Char) : List Char :=
  cs.flatMap (fun c => if c = '&' then " and ".data else [c])

/-- `.replace(/[^a-z0-9\s]/g, " ")` (runs on lower-cased text). -/
def sanitizeAlnum (cs : List Char) : List Char :=
  cs.map (fun c => if isAlnumLower c || isWs c then c else ' ')

/-- `normalizeAccountName` from `src/providers/account-utils.ts`:
lower-case, expand `&` to ` and `, replace non-`[a-z0-9\s]` characters by
spaces, delete `COMMON_SUFFIXES` whole-token matches, collapse whitespace,
trim.  The final `\s+` collapse and trim together with the token-wise suffix
deletion are realised as a single filter-and-rejoin of the token list. -/
def normalizeAccountName (name : String) : String :=
  let sanitized := String.mk (sanitizeAlnum (expandAmp (lowerStr name).data))
  joinWith " "
    ((wordsOf sanitized).filter (fun w => ¬ COMMON_SUFFIXES.contains w))

/-! ## Exact rational arithmetic

Scores and similarity ratios are exact rationals.  The field operations of
`ℚ` are routed through `Rat.divInt` on cross-multiplied integers — the
textbook fraction formulas, which evaluate inside the kernel; the bridge
lemmas `qAdd_eq`, `qSub_eq`, `qMul_eq` below prove them equal to `ℚ`'s
`+`, `-` and `*`. -/

/-- `a + b` on `ℚ` by cross-multiplication. -/
def qAdd (a b : ℚ) : ℚ :=
  Rat.divInt (a.num * b.den + b.num * a.den) (a.den * b.den)

/-- `a - b` on `ℚ` by cross-multiplication. -/
def qSub (a b : ℚ) : ℚ :=
  Rat.divInt (a.num * b.den - b.num * a.den) (a.den * b.den)

/-- `a * b` on `ℚ` by cross-multiplication. -/
def qMul (a b : ℚ) : ℚ :=
  Rat.divInt (a.num * b.num) (a.den * b.den)

/-- Decidable equality for `Except`, used to evaluate the embedded
functions that model JavaScript code that can throw. -/
instance {ε α : Type} [DecidableEq ε] [DecidableEq α] :
    DecidableEq (Except ε α) := fun a b =>
  match a, b with
  | .error e, .error f =>
    if h : e = f then isTrue (by rw [h]) else isFalse (fun hh => h (Except.error.inj hh))
  | .ok x, .ok y =>
    if h : x = y then isTrue (by rw [h]) else isFalse (fun hh => h (Except.ok.inj hh))
  | .error _, .ok _ => isFalse (fun hh => Except.noConfusion hh)
  | .ok _, .error _ => isFalse (fun hh => Except.noConfusion hh)

/-! ## Stable sort (model of `Array.prototype.sort`, stable since ES2019)

`stableSortBy lt` sorts with the strict "comes before" predicate `lt`
induced by a JavaScript comparator; elements neither of which comes strictly
before the other keep their input order. -/

/-- Insert `x` in front of the first element that does not come strictly
before it. -/
def insertBy (lt : α → α → Bool) (x : α) : List α → List α
  | [] => [x]
  | y :: ys => if lt y x then y :: insertBy lt x ys else x :: y :: ys

/-- Stable insertion sort. -/
def stableSortBy (lt : α → α → Bool) : List α → List α
  | [] => []
  | a :: rest => insertBy lt a (stableSortBy lt rest)

/-! ## Data model (`src/types/domain.ts`) -/

/-- `CallParticipant`. -/
structure CallParticipant where
  name : Option String
  email : Option String
  role : String
  deriving DecidableEq, Repr

/-- `CallSegment`. -/
structure CallSegment where
  speaker : Option String
  text : String
  startMs : Option Int
  endMs : Option Int
  deriving DecidableEq, Repr

/-- One entry of `metadata.dedupSources`: the identifying fields of a call
absorbed by dedupe (`mergeMetadata` in `src/pipeline/dedupe.ts`). -/
structure DedupSource where
  provider : String
  providerCallId : String
  title : String
  occurredAt : String
  durationSeconds : Option Int
  deriving DecidableEq, Repr

/-- The open `metadata` record of a `CanonicalCall`, restricted to the keys
the pipeline reads or writes (`recordingUrl`, `dedupSources`); every other
key is kept abstract in `extra` and only ever copied verbatim.  `none`
models an absent key. -/
structure Metadata where
  recordingUrl : Option String := none
  dedupSources : Option (List DedupSource) := none
  extra : List (String × String) := []
  deriving DecidableEq, Repr

/-- `CanonicalCall`.  `metadata?: Record<string, unknown>` is modelled as an
always-present `Metadata` record (an absent object behaves as one with all
keys absent, exactly how `kept.metadata ?? {}` treats it). -/
structure CanonicalCall where
  provider : String
  providerCallId : String
  accountId : String
  accountName : String
  title : String
  occurredAt : String
  durationSeconds : Option Int
  participants : List CallParticipant
  transcriptText : String
  segments : List CallSegment
  metadata : Metadata
  deriving DecidableEq, Repr

/-- `DuplicateResolution`. -/
structure DuplicateResolution where
  keptCallId : String
  keptProvider : String
  droppedCallId : String
  droppedProvider : String
  reason : String
  deriving DecidableEq, Repr

/-! ## Timestamp parsing

`dedupeCalls` compares `new Date(occurredAt).getTime()` values.
`parseIsoMillis` models `Date.parse` for canonical UTC ISO-8601 strings
(`YYYY-MM-DDTHH:MM:SSZ`, optionally with `.mmm` milliseconds), the format
every `occurredAt` in this development uses; any other string is treated as
an invalid date (`NaN`), i.e. `none`, under which every time-window
comparison is false — matching `NaN <= x` being false in JavaScript. -/

/-- Decimal digit value of a character, if it is a digit. -/
def digitVal (c : Char) : Option Nat :=
  if '0' ≤ c && c ≤ '9' then some (c.toNat - '0'.toNat) else none

/-- Parse a fixed run of decimal digits. -/
def digitsVal : List Char → Option Nat
  | [] => some 0
  | cs =>
    cs.foldl (fun acc c =>
      match acc, digitVal c with
      | some n, some d => some (n * 10 + d)
      | _, _ => none) (some 0)

/-- Days since 1970-01-01 of a civil date (Howard Hinnant's
`days_from_civil`, the algorithm underlying typical `Date` implementations
for the proleptic Gregorian calendar). -/
def daysFromCivil (y : Int) (m d : Nat) : Int :=
  let y' : Int := if m ≤ 2 then y - 1 else y
  let era : Int := (if 0 ≤ y' then y' else y' - 399) / 400
  let yoe : Int := y' - era * 400
  let mp : Nat := (m + 9) % 12
  let doy : Int := ((153 * mp + 2) / 5 + d - 1 : Nat)
  let doe : Int := yoe * 365 + yoe / 4 - yoe / 100 + doy
  era * 146097 + doe - 719468

/-- Milliseconds since the epoch of a canonical UTC ISO-8601 string. -/
def parseIsoMillis (s : String) : Option Int :=
  match s.data with
  | y1 :: y2 :: y3 :: y4 :: '-' :: m1 :: m2 :: '-' :: d1 :: d2 :: 'T' ::
    h1 :: h2 :: ':' :: n1 :: n2 :: ':' :: s1 :: s2 :: rest =>
    match digitsVal [y1, y2, y3, y4], digitsVal [m1, m2], digitsVal [d1, d2],
          digitsVal [h1, h2], digitsVal [n1, n2], digitsVal [s1, s2] with
    | some y, some mo, some d, some h, some mi, some sec =>
      if 1 ≤ mo && mo ≤ 12 && 1 ≤ d && d ≤ 31 && h ≤ 23 && mi ≤ 59 && sec ≤ 59 then
        match rest with
        | ['Z'] =>
          some ((daysFromCivil y mo d * 86400 + h * 3600 + mi * 60 + sec) * 1000)
        | ['.', a, b, c, 'Z'] =>
          match digitsVal [a, b, c] with
          | some ms =>
            some ((daysFromCivil y mo d * 86400 + h * 3600 + mi * 60 + sec) * 1000 + ms)
          | none => none
        | _ => none
      else none
    | _, _, _, _, _, _ => none
  | _ => none

/-! ## Call Deduplicator (`src/pipeline/dedupe.ts`) -/

/-- A fired duplicate rule: its `reason` label and confidence score. -/
structure DuplicateMatch where
  reason : String
  score : ℚ
  deriving DecidableEq, Repr

/-- `asString`: a metadata value is usable as a string when it is a string
whose trim is non-empty; the trimmed value is used. -/
def asStringOpt (v : Option String) : Option String :=
  match v with
  | some s => if 0 < (strTrim s).length then some (strTrim s) else none
  | none => none

/-- `normalizeUrl`: lower-case then `replace(/\/?$/, "")`, which deletes at
most one trailing slash. -/
def normalizeUrl (value : String) : String :=
  let t := lowerStr value
  match t.data.getLast? with
  | some '/' => String.mk t.data.dropLast
  | _ => t

/-- `normalizeText` from `src/pipeline/dedupe.ts`: lower-case, replace
non-`[a-z0-9\s]` by spaces, collapse whitespace, trim. -/
def normalizeText (input : String) : String :=
  joinWith " " (wordsOf (String.mk (sanitizeAlnum (lowerStr input).data)))

/-- `tokenize`: whitespace tokens of `normalizeText`, length ≥ 3. -/
def tokenize (input : String) : List String :=
  (wordsOf (normalizeText input)).filter (fun t => 3 ≤ t.length)

/-- `overlapSimilarity`: `|tokensA ∩ tokensB| / max(|tokensA|, |tokensB|)`
over the deduplicated token sets, `0` if either set is empty. -/
def overlapSimilarity (a b : String) : ℚ :=
  let tokensA := (tokenize a).dedup
  let tokensB := (tokenize b).dedup
  if tokensA.length = 0 ∨ tokensB.length = 0 then 0
  else
    let overlap := (tokensA.filter (fun t => tokensB.contains t)).length
    Rat.divInt overlap (max tokensA.length tokensB.length)

/-- `transcriptHash` equality: the source compares SHA-1 digests of
`normalizeText(transcript)` (empty text hashing to `""`); digest equality is
modelled as equality of the hashed normalized texts. -/
def transcriptHashKey (text : String) : String :=
  normalizeText text

/-- `evaluateDuplicate`: the ordered pairwise duplicate rules. -/
def evaluateDuplicate (a b : CanonicalCall) : Option DuplicateMatch :=
  if a.provider = b.provider ∧ a.providerCallId = b.providerCallId then
    some ⟨"same_provider_call_id", 1⟩
  else
    let urlA := asStringOpt a.metadata.recordingUrl
    let urlB := asStringOpt b.metadata.recordingUrl
    if urlA.isSome ∧ urlB.isSome ∧
        normalizeUrl (urlA.getD "") = normalizeUrl (urlB.getD "") then
      some ⟨"same_recording_url", Rat.divInt 99 100⟩
    else
      let hashA := transcriptHashKey a.transcriptText
      let hashB := transcriptHashKey b.transcriptText
      if hashA = hashB ∧ 0 < hashA.length then
        some ⟨"same_transcript_hash", Rat.divInt 97 100⟩
      else
        let durationDelta :=
          ((a.durationSeconds.getD 0) - (b.durationSeconds.getD 0)).natAbs
        match parseIsoMillis a.occurredAt, parseIsoMillis b.occurredAt with
        | some ta, some tb =>
          let timeDeltaMinutes : ℚ := Rat.divInt ((ta - tb).natAbs) 60000
          if timeDeltaMinutes ≤ 7 ∧ durationDelta ≤ 180 ∧
              Rat.divInt 72 100 ≤ overlapSimilarity a.title b.title then
            some ⟨"matching_time_and_title", Rat.divInt 94 100⟩
          else if timeDeltaMinutes ≤ 45 ∧ durationDelta ≤ 420 ∧
              Rat.divInt 86 100 ≤ overlapSimilarity a.transcriptText b.transcriptText then
            some ⟨"high_transcript_similarity", Rat.divInt 9 10⟩
          else none
        | _, _ => none

/-- `qualityScore`: `0.6·segments + 1.2·segmentsWithSpeaker
+ 1.2·segmentsWithTimestamp + min(50, transcriptLength/400)`.  A segment
"has a speaker" when `!!segment.speaker` is truthy, i.e. the speaker is
present and non-empty. -/
def qualityScore (call : CanonicalCall) : ℚ :=
  let segmentCount := call.segments.length
  let speakerCount :=
    (call.segments.filter (fun seg => seg.speaker.getD "" ≠ "")).length
  let tsCount := (call.segments.filter (fun seg => seg.startMs.isSome)).length
  let transcriptLen := call.transcriptText.length
  qAdd
    (qAdd (qAdd (qMul segmentCount (Rat.divInt 6 10))
        (qMul speakerCount (Rat.divInt 12 10)))
      (qMul tsCount (Rat.divInt 12 10)))
    (min 50 (Rat.divInt transcriptLen 400))

/-- The `provider:callId` tie-break key of `choosePreferred`. -/
def tieKey (c : CanonicalCall) : String :=
  c.provider ++ ":" ++ c.providerCallId

/-- `choosePreferred a b` returns `a` (the already-kept record) exactly when
this is `true`: higher quality wins, ties break by `provider:callId`
code-unit order, `a` on equality. -/
def preferExisting (a b : CanonicalCall) : Bool :=
  let scoreA := qualityScore a
  let scoreB := qualityScore b
  if scoreA < scoreB then false
  else if scoreB < scoreA then true
  else ! strLt (tieKey b) (tieKey a)

/-- The `dedupSources` entry recorded for a dropped call. -/
def dedupEntryOf (dropped : CanonicalCall) : DedupSource :=
  ⟨dropped.provider, dropped.providerCallId, dropped.title,
   dropped.occurredAt, dropped.durationSeconds⟩

/-- `mergeMetadata`: copy the kept record, appending the dropped record's
identifying entry to `metadata.dedupSources` (treated as `[]` when absent)
and leaving every other field and metadata key unchanged. -/
def mergeMetadata (kept dropped : CanonicalCall) : CanonicalCall :=
  let existing := kept.metadata.dedupSources.getD []
  { kept with
    metadata :=
      { kept.metadata with dedupSources := some (existing ++ [dedupEntryOf dropped]) } }

/-- The inner loop of `dedupeCalls`: index and rule of the best-scoring
already-kept duplicate candidate, if any rule fires (strictly higher scores
replace the running best, so the earliest best index wins). -/
def findBest (kept : List CanonicalCall) (call : CanonicalCall) :
    Option (Nat × DuplicateMatch) :=
  kept.enum.foldl
    (fun best (p : Nat × CanonicalCall) =>
      match evaluateDuplicate p.2 call with
      | none => best
      | some m =>
        match best with
        | none => some (p.1, m)
        | some (bi, bm) => if bm.score < m.score then some (p.1, m) else some (bi, bm))
    none

/-- One iteration of the `dedupeCalls` loop body on the accumulated
`(kept, duplicates)` state. -/
def dedupeStep (st : List CanonicalCall × List DuplicateResolution)
    (call : CanonicalCall) : List CanonicalCall × List DuplicateResolution :=
  match findBest st.1 call with
  | none => (st.1 ++ [call], st.2)
  | some (idx, m) =>
    let existing := (st.1.getD idx call)
    let pe := preferExisting existing call
    let preferred := if pe then existing else call
    let dropped := if pe then call else existing
    (st.1.set idx (mergeMetadata preferred dropped),
     st.2 ++ [⟨preferred.providerCallId, preferred.provider,
               dropped.providerCallId, dropped.provider, m.reason⟩])

/-- Strictly-earlier comparison on `occurredAt` (the
`localeCompare`-ordering of the sort in `dedupeCalls`). -/
def occLt (a b : CanonicalCall) : Bool :=
  strLt a.occurredAt b.occurredAt

/-- The result shape of `dedupeCalls`. -/
structure DedupeResult where
  calls : List CanonicalCall
  duplicates : List DuplicateResolution
  deriving DecidableEq, Repr

/-- `dedupeCalls`: sort by `occurredAt` ascending (stably), then fold each
call into the kept set, either keeping it or collapsing it into its
best-matching already-kept duplicate. -/
def dedupeCalls (calls : List CanonicalCall) : DedupeResult :=
  let sorted := stableSortBy occLt calls
  let st := sorted.foldl dedupeStep ([], [])
  ⟨st.1, st.2⟩

/-! ## Account Matcher (`src/webapp/account-matcher.ts`) -/

/-- `DiscoveredAccount`. -/
structure DiscoveredAccount where
  name : String
  normalizedName : String
  source : String
  callCount : Nat
  deriving DecidableEq, Repr

/-- `SharedAccountOption`. -/
structure SharedAccountOption where
  id : String
  displayName : String
  gongName : String
  grainName : String
  gongCallCount : Nat
  grainCallCount : Nat
  confidence : ℚ
  matchReason : String
  deriving DecidableEq, Repr

/-- The map key used for an account:
`account.normalizedName || normalizeAccountName(account.name)` (the empty
string is the only falsy string). -/
def keyOf (account : DiscoveredAccount) : String :=
  if account.normalizedName = "" then normalizeAccountName account.name
  else account.normalizedName

/-- JavaScript `Map.set`: replace the value of an existing key in place,
else append the binding. -/
def mapSet (m : List (String × DiscoveredAccount)) (k : String)
    (v : DiscoveredAccount) : List (String × DiscoveredAccount) :=
  if m.any (fun p => p.1 = k) then
    m.map (fun p => if p.1 = k then (k, v) else p)
  else m ++ [(k, v)]

/-- The insertion-ordered `Map` built from an account list
(`gongByNormalized` / `grainByNormalized`). -/
def buildMap (accounts : List DiscoveredAccount) :
    List (String × DiscoveredAccount) :=
  accounts.foldl (fun m a => mapSet m (keyOf a) a) []

/-- `Map.get`. -/
def lookupMap (m : List (String × DiscoveredAccount)) (k : String) :
    Option DiscoveredAccount :=
  (m.find? (fun p => p.1 = k)).map (·.2)

/-- `pickBetterName`: the longer trimmed raw name; on equal lengths the
`localeCompare`-smaller one. -/
def pickBetterName (a b : String) : String :=
  let aTrim := strTrim a
  let bTrim := strTrim b
  if aTrim.length = bTrim.length then
    if strLt bTrim aTrim then bTrim else aTrim
  else if bTrim.length < aTrim.length then aTrim else bTrim

/-- `createMatch` (the `id` is assigned later, post-sort). -/
def createMatch (gong grain : DiscoveredAccount) (reason : String)
    (confidence : ℚ) (canonicalName : Option String := none) :
    SharedAccountOption :=
  let displayName :=
    strTrim
      (match canonicalName with
       | some c =>
         if strTrim c = "" then pickBetterName gong.name grain.name else strTrim c
       | none => pickBetterName gong.name grain.name)
  ⟨"", displayName, gong.name, grain.name, gong.callCount, grain.callCount,
   confidence, reason⟩

/-- `nameSimilarity` of the heuristic pass: token-overlap ratio of the
length->1 space-split tokens, floored at `0.88` when one normalized key
contains the other, `0` when either token set is empty. -/
def nameSimilarity (a b : String) : ℚ :=
  if a = b then 1
  else
    let tokensA := ((splitOnSpace a).filter (fun t => 1 < t.length)).dedup
    let tokensB := ((splitOnSpace b).filter (fun t => 1 < t.length)).dedup
    if tokensA.length = 0 ∨ tokensB.length = 0 then 0
    else
      let overlap := (tokensA.filter (fun t => tokensB.contains t)).length
      let ratio := Rat.divInt overlap (max tokensA.length tokensB.length)
      if strIncludes a b || strIncludes b a then max ratio (Rat.divInt 88 100)
      else ratio

/-- The inner loop of the heuristic pass: scan the remaining grain records,
skipping already-used keys and scores below 0.82, keeping the best-scoring
candidate (strict improvement, so the earliest best wins). -/
def bestHeuristicFold (usedGrain : List String) (gongNormalized : String) :
    List (String × DiscoveredAccount) → Option (String × ℚ × DiscoveredAccount) →
    Option (String × ℚ × DiscoveredAccount)
  | [], best => best
  | p :: rest, best =>
    if usedGrain.contains p.1 then bestHeuristicFold usedGrain gongNormalized rest best
    else
      let score := nameSimilarity gongNormalized p.1
      if score < Rat.divInt 82 100 then
        bestHeuristicFold usedGrain gongNormalized rest best
      else
        match best with
        | none => bestHeuristicFold usedGrain gongNormalized rest (some (p.1, score, p.2))
        | some (bn, bs, ba) =>
          if bs < score then
            bestHeuristicFold usedGrain gongNormalized rest (some (p.1, score, p.2))
          else bestHeuristicFold usedGrain gongNormalized rest (some (bn, bs, ba))

/-- The best-scoring unmatched grain candidate for one gong key, among
scores ≥ 0.82. -/
def bestHeuristicCandidate (grainRemaining : List (String × DiscoveredAccount))
    (usedGrain : List String) (gongNormalized : String) :
    Option (String × ℚ × DiscoveredAccount) :=
  bestHeuristicFold usedGrain gongNormalized grainRemaining none

/-- Matcher state threaded through the three passes:
(`usedGong`, `usedGrain`, `matches`). -/
structure MatcherState where
  usedGong : List String
  usedGrain : List String
  matchList : List SharedAccountOption
  deriving Repr

/-- Pass 1: every normalized key present in both maps is an exact match,
confidence 1. -/
def exactPass (grainMap : List (String × DiscoveredAccount)) :
    List (String × DiscoveredAccount) → MatcherState → MatcherState
  | [], st => st
  | (normalized, gong) :: rest, st =>
    match lookupMap grainMap normalized with
    | none => exactPass grainMap rest st
    | some grain =>
      exactPass grainMap rest
        ⟨st.usedGong ++ [normalized], st.usedGrain ++ [normalized],
         st.matchList ++ [createMatch gong grain "exact" 1]⟩

/-- Pass 2: greedy per-gong-record best heuristic match over the records
both passes have not consumed. -/
def heuristicPass (grainRemaining : List (String × DiscoveredAccount)) :
    List (String × DiscoveredAccount) → MatcherState → MatcherState
  | [], st => st
  | (gongNormalized, gong) :: rest, st =>
    match bestHeuristicCandidate grainRemaining st.usedGrain gongNormalized with
    | none => heuristicPass grainRemaining rest st
    | some (bestNormalized, bestScore, bestAccount) =>
      heuristicPass grainRemaining rest
        ⟨st.usedGong ++ [gongNormalized], st.usedGrain ++ [bestNormalized],
         st.matchList ++ [createMatch gong bestAccount "heuristic" bestScore]⟩

/-- One candidate pair returned by the assisted (LLM) collaborator, after
schema validation (`LlmResponseSchema`: confidence within `[0,1]`). -/
structure LlmMatch where
  gongNormalizedName : String
  grainNormalizedName : String
  canonicalName : Option String
  confidence : ℚ
  deriving DecidableEq, Repr

/-- Pass 3: accept a collaborator pair only if both endpoints are still
unmatched and its confidence is ≥ 0.75. -/
def llmPass (gongMap grainMap : List (String × DiscoveredAccount)) :
    List LlmMatch → MatcherState → MatcherState
  | [], st => st
  | lm :: rest, st =>
    match lookupMap gongMap lm.gongNormalizedName,
          lookupMap grainMap lm.grainNormalizedName with
    | some gong, some grain =>
      if st.usedGong.contains lm.gongNormalizedName then llmPass gongMap grainMap rest st
      else if st.usedGrain.contains lm.grainNormalizedName then llmPass gongMap grainMap rest st
      else if lm.confidence < Rat.divInt 75 100 then llmPass gongMap grainMap rest st
      else
        llmPass gongMap grainMap rest
          ⟨st.usedGong ++ [lm.gongNormalizedName],
           st.usedGrain ++ [lm.grainNormalizedName],
           st.matchList ++ [createMatch gong grain "llm" lm.confidence lm.canonicalName]⟩
    | _, _ => llmPass gongMap grainMap rest st

/-- Outcome of the external OpenAI chat-completion request issued by
`llmMatchUnresolved`: the request may throw (network/API error), return a
response without content, or return content that either fails
`JSON.parse`/schema validation or parses to a match list. -/
inductive LlmOutcome where
  /-- `openai.chat.completions.create` rejected; the exception message. -/
  | networkError (msg : String)
  /-- `response.choices[0]?.message?.content` was absent. -/
  | noContent
  /-- content present but `JSON.parse`/`LlmResponseSchema.parse` threw. -/
  | malformed
  /-- content parsed and validated to this match list. -/
  | parsed (found : List LlmMatch)
  deriving DecidableEq, Repr

/-- `llmMatchUnresolved`, as a function of the request outcome.  Only the
missing-content and parse-failure cases are caught in the source (the
`try`/`catch` wraps `JSON.parse`+schema validation only); a rejected request
propagates as an exception, modelled as `Except.error`.  The request body
(the first 120 unresolved records of each side) does not constrain the
response and is not modelled. -/
def llmMatchUnresolved (outcome : LlmOutcome) : Except String (List LlmMatch) :=
  match outcome with
  | .networkError msg => .error msg
  | .noContent => .ok []
  | .malformed => .ok []
  | .parsed ms => .ok ms

/-- `MatcherInput`. -/
structure MatcherInput where
  gongAccounts : List DiscoveredAccount
  grainAccounts : List DiscoveredAccount
  openaiApiKey : Option String := none
  openaiModel : Option String := none
  deriving Repr

/-- Total call count of a match, the primary (descending) sort key. -/
def matchTotal (m : SharedAccountOption) : Nat :=
  m.gongCallCount + m.grainCallCount

/-- The output comparator: descending summed call count, ties ascending by
display name. -/
def matchBefore (a b : SharedAccountOption) : Bool :=
  if matchTotal a ≠ matchTotal b then decide (matchTotal b < matchTotal a)
  else strLt a.displayName b.displayName

/-- Post-sort sequential id assignment: `shared-1`, `shared-2`, …. -/
def assignIds : Nat → List SharedAccountOption → List SharedAccountOption
  | _, [] => []
  | i, m :: ms => { m with id := "shared-" ++ toString (i + 1) } :: assignIds (i + 1) ms

/-- The final `.sort(...).map(...)` of `matchSharedAccounts`. -/
def finalizeMatches (ms : List SharedAccountOption) :
    List SharedAccountOption :=
  assignIds 0 (stableSortBy matchBefore ms)

/-- The exact and heuristic passes of `matchSharedAccounts` (everything
before the assisted pass), returning the full matcher state. -/
def exactHeuristicState (input : MatcherInput) : MatcherState :=
  let gongMap := buildMap input.gongAccounts
  let grainMap := buildMap input.grainAccounts
  let st1 := exactPass grainMap gongMap ⟨[], [], []⟩
  let gongRemaining := gongMap.filter (fun p => ¬ st1.usedGong.contains p.1)
  let grainRemaining := grainMap.filter (fun p => ¬ st1.usedGrain.contains p.1)
  heuristicPass grainRemaining gongRemaining st1

/-- The records of the Gong map that the exact and heuristic passes left
unmatched (submitted to the assisted pass). -/
def unresolvedGongOf (input : MatcherInput) :
    List (String × DiscoveredAccount) :=
  (buildMap input.gongAccounts).filter
    (fun p => ¬ (exactHeuristicState input).usedGong.contains p.1)

/-- The records of the Grain map that the exact and heuristic passes left
unmatched. -/
def unresolvedGrainOf (input : MatcherInput) :
    List (String × DiscoveredAccount) :=
  (buildMap input.grainAccounts).filter
    (fun p => ¬ (exactHeuristicState input).usedGrain.contains p.1)

/-- `matchSharedAccounts`.  The assisted pass runs only when both sides
still have unresolved records and a non-blank API key is configured; its
request outcome is passed in as `outcome`.  A rejected request propagates
(`Except.error`); otherwise the accepted assisted pairs are appended and the
result is sorted and numbered. -/
def matchSharedAccounts (input : MatcherInput) (outcome : LlmOutcome) :
    Except String (List SharedAccountOption) :=
  if unresolvedGongOf input ≠ [] ∧ unresolvedGrainOf input ≠ [] ∧
      0 < (strTrim (input.openaiApiKey.getD "")).length then
    match llmMatchUnresolved outcome with
    | .error e => .error e
    | .ok llmMatches =>
      .ok (finalizeMatches
        (llmPass (buildMap input.gongAccounts) (buildMap input.grainAccounts)
          llmMatches (exactHeuristicState input)).matchList)
  else
    .ok (finalizeMatches (exactHeuristicState input).matchList)

/-! ## Evidence Validator (`src/pipeline/quotes.ts`, quote side)

The extraction collaborator's reply for each call is modelled, after
`safeParseExtraction`, as a list of `RawQuote` records (the parse and
field-defaulting layer turns arbitrary JSON into exactly this shape, or
into `[]` on parse failure).  The claim side of `extractFromCalls` is not
referenced by any statement below and is omitted. -/

/-- `RawQuote`: one candidate quote as parsed from the extraction reply. -/
structure RawQuote where
  quote : String
  speaker : Option String
  metricValue : Option String
  metricType : Option String
  reason : String
  sourceCallId : String
  sourceTimestampMs : Option Int
  confidence : ℚ
  deriving DecidableEq, Repr

/-- `QuoteEvidence`. -/
structure QuoteEvidence where
  quote : String
  speaker : Option String
  metricValue : Option String
  metricType : Option String
  reason : String
  sourceCallId : String
  sourceCallTitle : String
  sourceCallDate : String
  sourceTimestampMs : Option Int
  confidence : ℚ
  deriving DecidableEq, Repr

/-- `quoteAppearsInTranscript`: admit a quote only if its normalized text
has length ≥ 16 and is a substring of the normalized transcript. -/
def quoteAppearsInTranscript (quote transcript : String) : Bool :=
  let normalizedQuote := normalizeQ quote
  let normalizedTranscript := normalizeQ transcript
  decide (16 ≤ normalizedQuote.length) &&
    strIncludes normalizedTranscript normalizedQuote

/-- `findSegmentForText`: the first segment whose normalized text contains,
or is contained in, the normalized needle (needles shorter than 12
normalized characters never match). -/
def findSegmentForText (call : CanonicalCall) (text : String) :
    Option CallSegment :=
  let needle := normalizeQ text
  if needle.length < 12 then none
  else
    call.segments.find? (fun seg =>
      strIncludes (normalizeQ seg.text) needle ||
        strIncludes needle (normalizeQ seg.text))

/-- `withQuoteAttribution`: attach call-level attribution, backfilling
speaker and timestamp from a matching segment; the `sourceCallId` is the
extractor-supplied id, defaulting to the processed call's id when blank. -/
def withQuoteAttribution (raw : RawQuote) (call : CanonicalCall) :
    QuoteEvidence :=
  let segmentMatch := findSegmentForText call raw.quote
  { quote := raw.quote
    speaker := raw.speaker <|> segmentMatch.bind (·.speaker)
    metricValue := raw.metricValue
    metricType := raw.metricType
    reason := raw.reason
    sourceCallId := if raw.sourceCallId = "" then call.providerCallId else raw.sourceCallId
    sourceCallTitle := call.title
    sourceCallDate := call.occurredAt
    sourceTimestampMs := raw.sourceTimestampMs <|> segmentMatch.bind (·.startMs)
    confidence := raw.confidence }

/-- The per-call validate-and-attribute step of
`QuoteExtractor.extractFromCalls`. -/
def validatedQuotesFor (call : CanonicalCall) (raws : List RawQuote) :
    List QuoteEvidence :=
  (raws.filter (fun q => quoteAppearsInTranscript q.quote call.transcriptText)).map
    (fun q => withQuoteAttribution q call)

/-- `dedupeQuotes`: keep the first quote for each
`sourceCallId::lowercased-text` key. -/
def dedupeQuotesGo (seen : List String) : List QuoteEvidence → List QuoteEvidence
  | [] => []
  | q :: qs =>
    let key := q.sourceCallId ++ "::" ++ lowerStr q.quote
    if seen.contains key then dedupeQuotesGo seen qs
    else q :: dedupeQuotesGo (seen ++ [key]) qs

/-- `dedupeQuotes`. -/
def dedupeQuotes (quotes : List QuoteEvidence) : List QuoteEvidence :=
  dedupeQuotesGo [] quotes

/-- The quote side of `QuoteExtractor.extractFromCalls`: per call (in
order), validate the extraction reply's quotes against that call's
transcript and attribute them, then deduplicate the concatenation. -/
def extractQuotes (inputs : List (CanonicalCall × List RawQuote)) :
    List QuoteEvidence :=
  dedupeQuotes (inputs.flatMap (fun p => validatedQuotesFor p.1 p.2))

/-! ## Fuzzy account resolution (`src/mcp/server.ts`) -/

/-- `stripCompanySuffixes`:
`/\b(inc|incorporated|llc|ltd|limited|corp|corporation|company|co|plc|gmbh|sa|ag)\b/g`
replaced by spaces, then whitespace collapsed and trimmed.  It is applied to
`normalizeAccountName` outputs, which consist of `[a-z0-9]` tokens separated
by single spaces, where the `\b…\b` alternation matches exactly the whole
tokens equal to an alternative. -/
def MCP_SUFFIXES : List String :=
  ["inc", "incorporated", "llc", "ltd", "limited", "corp", "corporation",
   "company", "co", "plc", "gmbh", "sa", "ag"]

/-- `stripCompanySuffixes`. -/
def stripCompanySuffixes (input : String) : String :=
  joinWith " "
    ((wordsOf input).filter (fun w => ¬ MCP_SUFFIXES.contains w))

/-- `tokenSimilarity` of the resolver: `1` on equality, `0` when either
side is empty, `0.9` when one contains the other, else the token-overlap
ratio of the length->1 tokens. -/
def tokenSimilarity (a b : String) : ℚ :=
  if a = b then 1
  else if a = "" ∨ b = "" then 0
  else if strIncludes a b || strIncludes b a then Rat.divInt 9 10
  else
    let tokensA := ((splitOnSpace a).filter (fun t => 1 < t.length)).dedup
    let tokensB := ((splitOnSpace b).filter (fun t => 1 < t.length)).dedup
    if tokensA.length = 0 ∨ tokensB.length = 0 then 0
    else
      let overlap := (tokensA.filter (fun t => tokensB.contains t)).length
      Rat.divInt overlap (max tokensA.length tokensB.length)

/-- `normalizedPrefixSimilarity`: common-prefix length over max length. -/
def normalizedPrefixSimilarity (a b : String) : ℚ :=
  if a = "" ∨ b = "" then 0
  else
    let prefixLen := ((a.data.zip b.data).takeWhile (fun p => p.1 = p.2)).length
    Rat.divInt prefixLen (max a.length b.length)

/-- `levenshteinDistance` row update: given the previous dynamic-programming
row tail `ps` (entries for positions 1..m of `b`), the running diagonal and
left values, produce the new row tail for source character `c`. -/
def levNext (c : Char) : List Char → List Nat → Nat → Nat → List Nat
  | [], _, _, _ => []
  | _ :: _, [], _, _ => []
  | bc :: bs, p :: ps, diag, left =>
    let cost := if c = bc then 0 else 1
    let cur := min (min (p + 1) (left + 1)) (diag + cost)
    cur :: levNext c bs ps p cur

/-- `levenshteinDistance` outer loop over the characters of `a`; `row` is
the full current row (positions 0..m). -/
def levRows (bs : List Char) : List Char → List Nat → List Nat
  | [], row => row
  | c :: as_, row =>
    match row with
    | [] => []
    | d0 :: rest =>
      let first := d0 + 1
      levRows bs as_ (first :: levNext c bs rest d0 first)

/-- `levenshteinDistance`: standard dynamic-programming edit distance. -/
def levenshteinDistance (a b : String) : Nat :=
  let init := (List.range (b.length + 1))
  (levRows b.data a.data init).getLastD 0

/-- `normalizedEditSimilarity`: `1 - distance / max(len)`. -/
def normalizedEditSimilarity (a b : String) : ℚ :=
  if a = "" ∨ b = "" then 0
  else if a = b then 1
  else qSub 1 (Rat.divInt (levenshteinDistance a b) (max a.length b.length))

/-- `smartNameSimilarity`: the blended similarity
`max(tokenOverlap, editSimilarity, prefixSimilarity)` after stripping legal
suffixes from both sides. -/
def smartNameSimilarity (aRaw bRaw : String) : ℚ :=
  let a := stripCompanySuffixes aRaw
  let b := stripCompanySuffixes bRaw
  max (tokenSimilarity a b)
    (max (normalizedEditSimilarity a b) (normalizedPrefixSimilarity a b))

/-- `bestNameSimilarity`: best blended similarity of the requested name
against the match's display, gong and grain names (each normalized). -/
def bestNameSimilarity (account : SharedAccountOption)
    (normalizedRequested : String) : ℚ :=
  max (smartNameSimilarity (normalizeAccountName account.displayName) normalizedRequested)
    (max (smartNameSimilarity (normalizeAccountName account.gongName) normalizedRequested)
      (smartNameSimilarity (normalizeAccountName account.grainName) normalizedRequested))

/-- The subset of a `SharedAccountOption` returned by `toSelectedAccount`. -/
structure SelectedAccount where
  id : String
  displayName : String
  gongName : String
  grainName : String
  confidence : ℚ
  deriving DecidableEq, Repr

/-- `toSelectedAccount`. -/
def toSelectedAccount (account : SharedAccountOption) : SelectedAccount :=
  ⟨account.id, account.displayName, account.gongName, account.grainName,
   account.confidence⟩

/-- The failures `resolveSelectedAccount` can throw.  `noMatch` carries the
scored candidates whose top five are rendered into the error message as
suggestions. -/
inductive ResolveError where
  /-- "No shared accounts found across Gong and Grain." -/
  | noSharedAccounts
  /-- "No shared account match found … Try one of: …" with the top-5 scored
  candidates. -/
  | noMatch (suggestions : List (SharedAccountOption × ℚ))
  deriving DecidableEq, Repr

/-- Descending-score comparator of the candidate ranking. -/
def scoreBefore (a b : SharedAccountOption × ℚ) : Bool :=
  decide (b.2 < a.2)

/-- The ranked candidate list of `resolveSelectedAccount`: every account
paired with its best name similarity, sorted by score descending. -/
def rankCandidates (normalizedRequested : String)
    (accounts : List SharedAccountOption) : List (SharedAccountOption × ℚ) :=
  stableSortBy scoreBefore
    (accounts.map (fun a => (a, bestNameSimilarity a normalizedRequested)))

/-- The confidence gap `best.score - second.score` used by the acceptance
test; a lone candidate has gap `1`. -/
def scoreGapOf (best : SharedAccountOption × ℚ) :
    List (SharedAccountOption × ℚ) → ℚ
  | second :: _ => qSub best.2 second.2
  | [] => 1

/-- Does `account` match the requested name exactly after normalization
(on any of its three names)? -/
def exactNameMatch (normalizedRequested : String)
    (account : SharedAccountOption) : Bool :=
  normalizeAccountName account.displayName = normalizedRequested ||
    normalizeAccountName account.gongName = normalizedRequested ||
    normalizeAccountName account.grainName = normalizedRequested

/-- `resolveSelectedAccount`, from the discovered shared-account list (the
discovery call itself is an external collaborator).  Exact normalized-name
matches win; otherwise the top-ranked candidate is accepted iff its score is
≥ 0.82, or is ≥ 0.72 and leads the runner-up by ≥ 0.08 (a single candidate
has gap 1); otherwise the scored candidates are thrown as suggestions. -/
def resolveSelectedAccount (accountDisplayName : String)
    (accounts : List SharedAccountOption) :
    Except ResolveError SelectedAccount :=
  if accounts.length = 0 then .error .noSharedAccounts
  else
    match accounts.find?
        (exactNameMatch (normalizeAccountName accountDisplayName)) with
    | some exact => .ok (toSelectedAccount exact)
    | none =>
      match rankCandidates (normalizeAccountName accountDisplayName) accounts with
      | [] => .error (.noMatch [])
      | best :: tail =>
        if Rat.divInt 82 100 ≤ best.2 ∨
            (Rat.divInt 72 100 ≤ best.2 ∧
              Rat.divInt 8 100 ≤ scoreGapOf best tail) then
          .ok (toSelectedAccount best.1)
        else .error (.noMatch ((best :: tail).take 5))

/-! ## Proof-support definitions -/

/-- Sortedness with respect to a strict "comes before" Boolean comparator:
no adjacent element comes strictly before its predecessor. -/
def SortedB (lt : α → α → Bool) (l : List α) : Prop :=
  List.Chain' (fun a b => lt b a = false) l

/-- The kept-set trace of a `dedupeCalls` run that collapses nothing:
every call, processed in order, matches no already-kept call. -/
def NoMatches : List CanonicalCall → List CanonicalCall → Prop
  | _, [] => True
  | kept0, c :: l => findBest kept0 c = none ∧ NoMatches (kept0 ++ [c]) l

/-- The gong-side tag of a produced match: the normalized key its raw gong
name reduces to. -/
def gTag (m : SharedAccountOption) : String :=
  normalizeAccountName m.gongName

/-- The grain-side tag of a produced match. -/
def rTag (m : SharedAccountOption) : String :=
  normalizeAccountName m.grainName

/-- Injectivity bookkeeping for a matcher pass: the tags of the produced
matches are pairwise distinct and all recorded in the given used-key set. -/
def TaggedSide (tagOf : SharedAccountOption → String) (used : List String)
    (ms : List SharedAccountOption) : Prop :=
  (ms.map tagOf).Nodup ∧ ∀ m ∈ ms, tagOf m ∈ used

/-! ## Concrete instances used by counterexamples and witnesses -/

/-- A structurally rich segment (speaker and timestamp present). -/
def exSegRichOne : CallSegment :=
  ⟨some "S", "totally different words", some 0, some 10⟩

/-- A second rich segment. -/
def exSegRichTwo : CallSegment :=
  ⟨some "T", "more words", some 10, some 20⟩

/-- Dedupe example: a sparse early call with a recording URL. -/
def exDedupA : CanonicalCall :=
  ⟨"p1", "a", "x", "Acme", "one two three", "2024-01-01T00:00:00Z", none, [],
   "alpha words here", [], { recordingUrl := some "https://x/rec" }⟩

/-- Dedupe example: an unrelated mid-day call. -/
def exDedupB : CanonicalCall :=
  ⟨"p1", "b", "x", "Acme", "four five six", "2024-01-01T10:00:00Z", none, [],
   "totally different words", [], {}⟩

/-- Dedupe example: a rich late call sharing `exDedupA`'s recording URL and
`exDedupB`'s transcript. -/
def exDedupC : CanonicalCall :=
  ⟨"p2", "c", "x", "Acme", "seven eight nine", "2024-01-01T20:00:00Z", none, [],
   "totally different words", [exSegRichOne, exSegRichTwo],
   { recordingUrl := some "https://x/rec" }⟩

/-- Earliest-call example: sparse record at the earlier timestamp. -/
def exEarlyA : CanonicalCall :=
  ⟨"p1", "a", "x", "Acme", "earliest", "2024-01-01T00:00:00Z", none, [],
   "alpha", [], { recordingUrl := some "https://x/r" }⟩

/-- Earliest-call example: a structurally richer duplicate one minute
later (same recording URL). -/
def exEarlyB : CanonicalCall :=
  ⟨"p2", "b", "x", "Acme", "later", "2024-01-01T00:01:00Z", none, [],
   "beta", [exSegRichOne, exSegRichTwo], { recordingUrl := some "https://x/r" }⟩

/-- Matcher example: two Gong accounts with the same raw name under two
different pre-set normalized keys. -/
def exDupGong : List DiscoveredAccount :=
  [⟨"X", "k1", "gong", 1⟩, ⟨"X", "k2", "gong", 1⟩]

/-- Matcher example: the Grain side of `exDupGong`. -/
def exDupGrain : List DiscoveredAccount :=
  [⟨"X", "k1", "grain", 1⟩, ⟨"X", "k2", "grain", 1⟩]

/-- Matcher example: the discovery fixture of the repository's tests. -/
def exAcmeGong : List DiscoveredAccount :=
  [⟨"Acme Inc", "acme", "gong", 4⟩, ⟨"Northstar", "northstar", "gong", 2⟩]

/-- Matcher example: the Grain side of `exAcmeGong`. -/
def exAcmeGrain : List DiscoveredAccount :=
  [⟨"Acme", "acme", "grain", 3⟩, ⟨"Delta", "delta", "grain", 1⟩]

/-- Matcher example: a single unresolvable Gong account. -/
def exLoneGong : List DiscoveredAccount :=
  [⟨"Wholly Different", "wholly different", "gong", 1⟩]

/-- Matcher example: a single unresolvable Grain account. -/
def exLoneGrain : List DiscoveredAccount :=
  [⟨"Another Thing", "another thing", "grain", 1⟩]

/-- Quote example: the call actually containing the quoted text. -/
def exQuoteCall : CanonicalCall :=
  ⟨"gong", "c1", "x", "Acme", "QBR", "2024-01-01T00:00:00Z", some 10, [],
   "We saved $200k annually with the new tool",
   [⟨some "A", "We saved $200k annually with the new tool", some 777, none⟩], {}⟩

/-- Quote example: a second call whose transcript does not contain the
quote. -/
def exOtherCall : CanonicalCall :=
  ⟨"grain", "c2", "x", "Acme", "Sync", "2024-01-02T00:00:00Z", some 10, [],
   "nothing relevant here", [], {}⟩

/-- Quote example: an extraction reply quoting `exQuoteCall`'s transcript
but claiming `sourceCallId` `"c2"` (the id of `exOtherCall`). -/
def exMisattributedQuote : RawQuote :=
  ⟨"We saved $200k annually", none, none, none, "money", "c2", none, 1⟩

/-- Quote example: the same quote with a blank `sourceCallId`. -/
def exHonestQuote : RawQuote :=
  ⟨"We saved $200k annually", none, none, none, "money", "", none, 1⟩

/-- The admitted quote produced from `exHonestQuote` against
`exQuoteCall`. -/
def exWitnessQuote : QuoteEvidence :=
  withQuoteAttribution exHonestQuote exQuoteCall

/-- Resolver example: a high-similarity shared account (no raw name of
which normalizes to `"acme"`). -/
def exResolveAcme : SharedAccountOption :=
  ⟨"shared-1", "Acme Incorporated", "Acme Incorporated", "Acme Incorporated",
   4, 3, 1, "exact"⟩

/-- Resolver example: a lower-similarity shared account. -/
def exResolveAcmeo : SharedAccountOption :=
  ⟨"shared-2", "Acmeo Ltd", "Acmeo Ltd", "Acmeo", 1, 1, 1, "exact"⟩


/-! ## Bridge lemmas for the exact rational arithmetic -/

theorem qAdd_eq (a b : ℚ) : qAdd a b = a + b := by
  have ha : ((a.den : ℚ)) ≠ 0 := by exact_mod_cast a.den_nz
  have hb : ((b.den : ℚ)) ≠ 0 := by exact_mod_cast b.den_nz
  rw [qAdd, Rat.divInt_eq_div]
  push_cast
  conv_rhs => rw [← Rat.num_div_den a, ← Rat.num_div_den b]
  rw [div_add_div _ _ ha hb]
  ring_nf

theorem qSub_eq (a b : ℚ) : qSub a b = a - b := by
  have ha : ((a.den : ℚ)) ≠ 0 := by exact_mod_cast a.den_nz
  have hb : ((b.den : ℚ)) ≠ 0 := by exact_mod_cast b.den_nz
  rw [qSub, Rat.divInt_eq_div]
  push_cast
  conv_rhs => rw [← Rat.num_div_den a, ← Rat.num_div_den b]
  rw [div_sub_div _ _ ha hb]
  ring_nf

theorem qMul_eq (a b : ℚ) : qMul a b = a * b := by
  have ha : ((a.den : ℚ)) ≠ 0 := by exact_mod_cast a.den_nz
  have hb : ((b.den : ℚ)) ≠ 0 := by exact_mod_cast b.den_nz
  rw [qMul, Rat.divInt_eq_div]
  push_cast
  conv_rhs => rw [← Rat.num_div_den a, ← Rat.num_div_den b]
  rw [div_mul_div_comm]

/-! ## Stable sort lemmas -/

theorem insertBy_length (lt : α → α → Bool) (x : α) (l : List α) :
    (insertBy lt x l).length = l.length + 1 := by
  induction l with
  | nil => rfl
  | cons y ys ih => simp only [insertBy]; split <;> simp [ih]

theorem stableSortBy_length (lt : α → α → Bool) (l : List α) :
    (stableSortBy lt l).length = l.length := by
  induction l with
  | nil => rfl
  | cons a rest ih => simp [stableSortBy, insertBy_length, ih]

theorem insertBy_perm (lt : α → α → Bool) (x : α) (l : List α) :
    List.Perm (insertBy lt x l) (x :: l) := by
  induction l with
  | nil => exact List.Perm.refl _
  | cons y ys ih =>
    simp only [insertBy]
    split
    · exact (ih.cons y).trans (List.Perm.swap x y ys)
    · exact List.Perm.refl _

theorem stableSortBy_perm (lt : α → α → Bool) (l : List α) :
    List.Perm (stableSortBy lt l) l := by
  induction l with
  | nil => exact List.Perm.refl _
  | cons a rest ih =>
    exact (insertBy_perm lt a (stableSortBy lt rest)).trans (ih.cons a)

theorem insertBy_head?_cases (lt : α → α → Bool) (x : α) (l : List α) (z : α)
    (h : (insertBy lt x l).head? = some z) : z = x ∨ l.head? = some z := by
  cases l with
  | nil =>
    simp only [insertBy, List.head?] at h
    exact Or.inl (Option.some.inj h).symm
  | cons y ys =>
    simp only [insertBy] at h
    split at h
    · exact Or.inr (by simpa using h)
    · simp only [List.head?] at h
      exact Or.inl (Option.some.inj h).symm

theorem insertBy_sortedB (lt : α → α → Bool)
    (hasym : ∀ a b, lt a b = true → lt b a = false)
    (x : α) (l : List α) (h : SortedB lt l) : SortedB lt (insertBy lt x l) := by
  induction l with
  | nil => simp [insertBy, SortedB]
  | cons y ys ih =>
    have hys : SortedB lt ys := h.tail
    simp only [insertBy]
    split
    case isTrue hlt =>
      rw [SortedB, List.chain'_cons']
      refine ⟨fun z hz => ?_, ih hys⟩
      rcases insertBy_head?_cases lt x ys z hz with hzx | hzy
      · subst hzx; exact hasym _ _ hlt
      · cases ys with
        | nil => simp at hzy
        | cons w ws =>
          have hzw : w = z := by simpa using hzy
          subst hzw
          exact (List.chain'_cons.mp h).1
    case isFalse hge =>
      rw [SortedB, List.chain'_cons']
      exact ⟨fun z hz => by simp at hz; subst hz; simpa using hge, h⟩

theorem stableSortBy_sortedB (lt : α → α → Bool)
    (hasym : ∀ a b, lt a b = true → lt b a = false) (l : List α) :
    SortedB lt (stableSortBy lt l) := by
  induction l with
  | nil => simp [stableSortBy, SortedB]
  | cons a rest ih => exact insertBy_sortedB lt hasym a _ ih

theorem stableSortBy_eq_of_sortedB (lt : α → α → Bool) (l : List α)
    (h : SortedB lt l) : stableSortBy lt l = l := by
  induction l with
  | nil => rfl
  | cons a rest ih =>
    have hrest : SortedB lt rest := h.tail
    simp only [stableSortBy, ih hrest]
    cases rest with
    | nil => rfl
    | cons b bs =>
      have hab : lt b a = false := (List.chain'_cons.mp h).1
      simp [insertBy, hab]

theorem sortedB_head_le (lt : α → α → Bool)
    (htrans : ∀ a b c, lt b a = false → lt c b = false → lt c a = false)
    (x : α) (l : List α) (h : SortedB lt (x :: l)) :
    ∀ y ∈ l, lt y x = false := by
  induction l generalizing x with
  | nil => intro y hy; simp at hy
  | cons b bs ih =>
    intro y hy
    have hxb : lt b x = false := (List.chain'_cons.mp h).1
    have hbs : SortedB lt (b :: bs) := (List.chain'_cons.mp h).2
    rcases List.mem_cons.mp hy with rfl | hys
    · exact hxb
    · exact htrans x b y hxb (ih b hbs y hys)



/-! ## Dedupe: conservation and non-emptiness -/

theorem dedupeStep_lengths (st : List CanonicalCall × List DuplicateResolution)
    (c : CanonicalCall) :
    ((dedupeStep st c).1).length + ((dedupeStep st c).2).length
      = st.1.length + st.2.length + 1 := by
  unfold dedupeStep
  cases h : findBest st.1 c with
  | none => simp; omega
  | some p =>
    obtain ⟨idx, m⟩ := p
    simp [List.length_set]
    omega

theorem dedupeFold_lengths (l : List CanonicalCall)
    (st : List CanonicalCall × List DuplicateResolution) :
    ((l.foldl dedupeStep st).1).length + ((l.foldl dedupeStep st).2).length
      = st.1.length + st.2.length + l.length := by
  induction l generalizing st with
  | nil => simp
  | cons c cs ih =>
    simp only [List.foldl_cons, List.length_cons]
    rw [ih]
    have := dedupeStep_lengths st c
    omega

/-- C5: `dedupeCalls` conserves records — the number of `DuplicateResolution`
entries plus the number of output calls equals the number of input calls,
for every input list. -/
theorem dedupe_conservation (calls : List CanonicalCall) :
    (dedupeCalls calls).duplicates.length + (dedupeCalls calls).calls.length
      = calls.length := by
  show ((stableSortBy occLt calls).foldl dedupeStep ([], [])).2.length
      + ((stableSortBy occLt calls).foldl dedupeStep ([], [])).1.length
      = calls.length
  have h := dedupeFold_lengths (stableSortBy occLt calls) ([], [])
  have hlen := stableSortBy_length occLt calls
  simp at h
  omega

theorem dedupeStep_fst_le (st : List CanonicalCall × List DuplicateResolution)
    (c : CanonicalCall) : st.1.length ≤ ((dedupeStep st c).1).length := by
  unfold dedupeStep
  cases h : findBest st.1 c with
  | none => simp
  | some p =>
    obtain ⟨idx, m⟩ := p
    simp [List.length_set]

theorem dedupeFold_fst_le (l : List CanonicalCall)
    (st : List CanonicalCall × List DuplicateResolution) :
    st.1.length ≤ ((l.foldl dedupeStep st).1).length := by
  induction l generalizing st with
  | nil => simp
  | cons c cs ih =>
    simp only [List.foldl_cons]
    exact le_trans (dedupeStep_fst_le st c) (ih (dedupeStep st c))

/-- C9 (amended): for every non-empty input list, `dedupeCalls` returns at
least one call — the first call of the sorted order is initially kept and
kept slots are only ever replaced by merged records, never removed, so the
caller's "all calls were removed by dedupe" branch is unreachable on
non-empty input.  (The earliest call itself need not survive: it can be
dropped in favour of a preferred duplicate, see
`dedupe_earliest_call_dropped_cex`.) -/
theorem dedupe_output_nonempty (calls : List CanonicalCall)
    (h : calls ≠ []) : (dedupeCalls calls).calls ≠ [] := by
  have hlen : (stableSortBy occLt calls).length = calls.length :=
    stableSortBy_length occLt calls
  have hne : stableSortBy occLt calls ≠ [] := by
    intro hnil
    rw [hnil] at hlen
    exact h (List.length_eq_zero.mp hlen.symm)
  obtain ⟨c, rest, hcr⟩ := List.exists_cons_of_ne_nil hne
  show ((stableSortBy occLt calls).foldl dedupeStep ([], [])).1 ≠ []
  rw [hcr]
  simp only [List.foldl_cons]
  have hstep : dedupeStep ([], []) c = ([c], []) := rfl
  rw [hstep]
  have hle := dedupeFold_fst_le rest ([c], [])
  intro hnil
  rw [hnil] at hle
  simp at hle

/-- Witness for C9 at a concrete input. -/
theorem dedupe_output_nonempty_witness :
    [exDedupA] ≠ ([] : List CanonicalCall) ∧
      (dedupeCalls [exDedupA]).calls ≠ [] :=
  ⟨by decide, dedupe_output_nonempty [exDedupA] (by decide)⟩

/-- Counterexample to C9's parenthetical justification: the earliest call
(`exEarlyA`, midnight) is *not* always kept — its one-minute-later duplicate
`exEarlyB` is structurally richer, so dedupe prefers `exEarlyB` and drops
the earliest call, while the output stays non-empty. -/
theorem dedupe_earliest_call_dropped_cex :
    occLt exEarlyA exEarlyB = true ∧
      exEarlyA ∉ (dedupeCalls [exEarlyA, exEarlyB]).calls ∧
      ((dedupeCalls [exEarlyA, exEarlyB]).duplicates.map
        (fun d => d.droppedCallId)) = ["a"] ∧
      (dedupeCalls [exEarlyA, exEarlyB]).calls ≠ [] := by decide

/-- C10: the merged record `mergeMetadata preferred dropped` (as invoked by
`dedupeCalls` in both of its branches) is the preferred call with only its
`metadata.dedupSources` key changed: that key gains exactly the one appended
entry holding the dropped call's provider, call id, title, date and
duration; every other field and every other metadata key is unchanged. -/
theorem mergeMetadata_frame (preferred dropped : CanonicalCall) :
    mergeMetadata preferred dropped =
      { preferred with
        metadata :=
          { preferred.metadata with
            dedupSources :=
              some (preferred.metadata.dedupSources.getD [] ++
                [⟨dropped.provider, dropped.providerCallId, dropped.title,
                  dropped.occurredAt, dropped.durationSeconds⟩]) } } ∧
    (mergeMetadata preferred dropped).provider = preferred.provider ∧
    (mergeMetadata preferred dropped).providerCallId = preferred.providerCallId ∧
    (mergeMetadata preferred dropped).accountId = preferred.accountId ∧
    (mergeMetadata preferred dropped).accountName = preferred.accountName ∧
    (mergeMetadata preferred dropped).title = preferred.title ∧
    (mergeMetadata preferred dropped).occurredAt = preferred.occurredAt ∧
    (mergeMetadata preferred dropped).durationSeconds = preferred.durationSeconds ∧
    (mergeMetadata preferred dropped).participants = preferred.participants ∧
    (mergeMetadata preferred dropped).transcriptText = preferred.transcriptText ∧
    (mergeMetadata preferred dropped).segments = preferred.segments ∧
    (mergeMetadata preferred dropped).metadata.recordingUrl
      = preferred.metadata.recordingUrl ∧
    (mergeMetadata preferred dropped).metadata.extra = preferred.metadata.extra :=
  ⟨rfl, rfl, rfl, rfl, rfl, rfl, rfl, rfl, rfl, rfl, rfl, rfl, rfl⟩



/-! ## Dedupe: idempotence analysis (C4) -/

theorem dedupeStep_snd_grows (st : List CanonicalCall × List DuplicateResolution)
    (c : CanonicalCall) : st.2 <+: (dedupeStep st c).2 := by
  unfold dedupeStep
  cases h : findBest st.1 c with
  | none => exact List.prefix_refl _
  | some p =>
    obtain ⟨idx, m⟩ := p
    exact ⟨_, rfl⟩

theorem dedupeFold_snd_grows (l : List CanonicalCall)
    (st : List CanonicalCall × List DuplicateResolution) :
    st.2 <+: (l.foldl dedupeStep st).2 := by
  induction l generalizing st with
  | nil => exact List.prefix_refl _
  | cons c cs ih =>
    simp only [List.foldl_cons]
    exact (dedupeStep_snd_grows st c).trans (ih (dedupeStep st c))

theorem dedupeFold_no_dups (l : List CanonicalCall) (kept0 : List CanonicalCall)
    (dups0 : List DuplicateResolution)
    (h : (l.foldl dedupeStep (kept0, dups0)).2 = dups0) :
    NoMatches kept0 l ∧ (l.foldl dedupeStep (kept0, dups0)).1 = kept0 ++ l := by
  induction l generalizing kept0 with
  | nil => exact ⟨trivial, by simp⟩
  | cons c cs ih =>
    simp only [List.foldl_cons] at h ⊢
    cases hfb : findBest kept0 c with
    | none =>
      have hstep : dedupeStep (kept0, dups0) c = (kept0 ++ [c], dups0) := by
        unfold dedupeStep; rw [hfb]
      rw [hstep] at h ⊢
      obtain ⟨hnm, hk⟩ := ih (kept0 ++ [c]) h
      refine ⟨⟨hfb, hnm⟩, ?_⟩
      rw [hk]
      simp
    | some p =>
      obtain ⟨idx, m⟩ := p
      exfalso
      have hstep : (dedupeStep (kept0, dups0) c).2
          = dups0 ++ [⟨(if preferExisting (kept0.getD idx c) c then kept0.getD idx c else c).providerCallId,
                       (if preferExisting (kept0.getD idx c) c then kept0.getD idx c else c).provider,
                       (if preferExisting (kept0.getD idx c) c then c else kept0.getD idx c).providerCallId,
                       (if preferExisting (kept0.getD idx c) c then c else kept0.getD idx c).provider,
                       m.reason⟩] := by
        unfold dedupeStep; rw [hfb]
      have hpre := dedupeFold_snd_grows cs (dedupeStep (kept0, dups0) c)
      rw [h, hstep] at hpre
      have hlen := hpre.length_le
      simp at hlen

theorem dedupeFold_of_noMatches (l : List CanonicalCall)
    (kept0 : List CanonicalCall) (dups0 : List DuplicateResolution)
    (h : NoMatches kept0 l) :
    l.foldl dedupeStep (kept0, dups0) = (kept0 ++ l, dups0) := by
  induction l generalizing kept0 with
  | nil => simp
  | cons c cs ih =>
    obtain ⟨hfb, hnm⟩ := h
    simp only [List.foldl_cons]
    have hstep : dedupeStep (kept0, dups0) c = (kept0 ++ [c], dups0) := by
      unfold dedupeStep; rw [hfb]
    rw [hstep, ih (kept0 ++ [c]) hnm]
    simp

theorem listStrLt_asymm (a : List Char) :
    ∀ b, listStrLt a b = true → listStrLt b a = false := by
  induction a with
  | nil =>
    intro b h
    cases b with
    | nil => simp [listStrLt] at h
    | cons y ys => simp [listStrLt]
  | cons x xs ih =>
    intro b h
    cases b with
    | nil => simp [listStrLt] at h
    | cons y ys =>
      simp only [listStrLt] at h ⊢
      by_cases hxy : x.toNat < y.toNat
      · have hyx : ¬ y.toNat < x.toNat := by omega
        simp [hxy, hyx]
      · by_cases hyx : y.toNat < x.toNat
        · simp [hxy, hyx] at h
        · simp only [hxy, hyx, if_false]
          simp only [hxy, hyx, if_false] at h
          exact ih ys h

theorem occLt_asymm : ∀ a b : CanonicalCall,
    occLt a b = true → occLt b a = false := by
  intro a b h
  exact listStrLt_asymm _ _ h

/-- C4 (amended): `dedupeCalls` is idempotent on the inputs it finds
duplicate-free — whenever a run returns an empty `duplicates` list,
re-running it on the output calls returns exactly those calls and an empty
`duplicates` list.  (When a run *does* collapse duplicates this can fail: a
merged replacement record can reorder the output and match other kept
calls, see `dedupe_not_idempotent_cex`.) -/
theorem dedupe_idempotent_of_no_duplicates (calls : List CanonicalCall)
    (h : (dedupeCalls calls).duplicates = []) :
    dedupeCalls (dedupeCalls calls).calls
      = ⟨(dedupeCalls calls).calls, []⟩ := by
  have h2 : ((stableSortBy occLt calls).foldl dedupeStep ([], [])).2 = [] := h
  obtain ⟨hnm, hkept⟩ :=
    dedupeFold_no_dups (stableSortBy occLt calls) [] [] h2
  simp only [List.nil_append] at hkept
  have hcalls : (dedupeCalls calls).calls = stableSortBy occLt calls := hkept
  rw [hcalls]
  have hsorted : SortedB occLt (stableSortBy occLt calls) :=
    stableSortBy_sortedB occLt occLt_asymm calls
  have hfix : stableSortBy occLt (stableSortBy occLt calls)
      = stableSortBy occLt calls :=
    stableSortBy_eq_of_sortedB occLt _ hsorted
  show (⟨_, _⟩ : DedupeResult) = _
  have hfold :=
    dedupeFold_of_noMatches (stableSortBy occLt calls) [] [] hnm
  simp only [List.nil_append] at hfold
  simp only [hfix, hfold]

/-- Witness for C4 (amended) at a concrete duplicate-free input. -/
theorem dedupe_idempotent_of_no_duplicates_witness :
    (dedupeCalls [exDedupA, exDedupB]).duplicates = [] ∧
      dedupeCalls (dedupeCalls [exDedupA, exDedupB]).calls
        = ⟨(dedupeCalls [exDedupA, exDedupB]).calls, []⟩ :=
  ⟨by decide, dedupe_idempotent_of_no_duplicates [exDedupA, exDedupB] (by decide)⟩

/-- Counterexample to C4 as stated: on `[exDedupA, exDedupB, exDedupC]` the
first run collapses `exDedupC` into `exDedupA` (shared recording URL) and
keeps the richer `exDedupC` as the merged record; re-running dedupe on the
two output calls collapses them further (the merged record shares
`exDedupB`'s transcript), so the second run neither returns the same calls
nor an empty duplicates list. -/
theorem dedupe_not_idempotent_cex :
    (dedupeCalls [exDedupA, exDedupB, exDedupC]).calls.length = 2 ∧
      (dedupeCalls (dedupeCalls [exDedupA, exDedupB, exDedupC]).calls).calls.length = 1 ∧
      (dedupeCalls (dedupeCalls [exDedupA, exDedupB, exDedupC]).calls).duplicates ≠ [] ∧
      dedupeCalls (dedupeCalls [exDedupA, exDedupB, exDedupC]).calls
        ≠ ⟨(dedupeCalls [exDedupA, exDedupB, exDedupC]).calls, []⟩ := by decide



/-! ## Name Normalizer (C6) -/

/-- Counterexample to C6 as stated: the claimed dotted-variant and bare-`co`
suffix stripping does not happen — all punctuation is replaced by spaces
*before* the suffix regex runs, so the alternatives `co.` and `s.a.` can
never match and bare `co` is not an alternative at all:
`normalizeAccountName "Acme Co" = "acme co"` (not `"acme"`) and
`normalizeAccountName "Acme S.A." = "acme s a"` (not `"acme"`). -/
theorem normalizeAccountName_dotted_suffix_cex :
    normalizeAccountName "Acme Co" = "acme co" ∧
      normalizeAccountName "Acme Co" ≠ "acme" ∧
      normalizeAccountName "Acme S.A." = "acme s a" ∧
      normalizeAccountName "Acme S.A." ≠ "acme" := by decide

/-- C6 (amended): `normalizeAccountName` lower-cases, expands `&` to `and`,
replaces every non-alphanumeric character by a space, then strips — as whole
tokens — only the undotted legal-entity suffixes
`inc, llc, ltd, corp, corporation, company, plc, gmbh, sa, pte, pty`,
collapses whitespace and trims.  Dotted suffix spellings in the input still
strip when the dot leaves an undotted token behind (`"Acme, Inc."`), but the
dotted regex alternatives themselves are dead, so `"Acme Co"` keeps `co`
(only `co.` is listed) and `"Acme S.A."` becomes `"acme s a"` (`s` and `a`
are not tokens of the list, and `sa` never appears as one token). -/
theorem normalizeAccountName_spec :
    normalizeAccountName "Acme & Co Ltd" = "acme and co" ∧
      normalizeAccountName "Acme Inc" = "acme" ∧
      normalizeAccountName "Acme, Inc." = "acme" ∧
      normalizeAccountName "Acme Corporation" = "acme" ∧
      normalizeAccountName "Acme SA" = "acme" ∧
      normalizeAccountName "  Acme   Pte  " = "acme" ∧
      normalizeAccountName "Acme Co" = "acme co" ∧
      normalizeAccountName "Acme S.A." = "acme s a" := by decide

/-! ## Account Matcher: assisted-pass failure tolerance (C2) -/

/-- Counterexample to C2 as stated: with unresolved accounts on both sides
and an API key configured, a *thrown* collaborator request (network/API
error) propagates out of `matchSharedAccounts` — the `try`/`catch` in
`llmMatchUnresolved` wraps only `JSON.parse` and schema validation, not the
`openai.chat.completions.create` call itself. -/
theorem matchSharedAccounts_network_error_cex :
    matchSharedAccounts
        ⟨exLoneGong, exLoneGrain, some "sk-test", none⟩
        (.networkError "ECONNREFUSED")
      = .error "ECONNREFUSED" := by decide

/-- C2 (amended): when the assisted collaborator returns no content or
returns malformed/unparsable output, `matchSharedAccounts` completes
normally and returns exactly the exact-pass and heuristic-pass matches (the
assisted pass contributes zero matches); a *thrown* collaborator request,
however, either propagates as the error (when the assisted pass runs) or is
never issued (when it is skipped), so only the parse-level failures are
fail-open. -/
theorem matchSharedAccounts_fail_open (input : MatcherInput) (msg : String) :
    matchSharedAccounts input .noContent
      = .ok (finalizeMatches (exactHeuristicState input).matchList) ∧
    matchSharedAccounts input .malformed
      = .ok (finalizeMatches (exactHeuristicState input).matchList) ∧
    (matchSharedAccounts input (.networkError msg) = .error msg ∨
      matchSharedAccounts input (.networkError msg)
        = .ok (finalizeMatches (exactHeuristicState input).matchList)) := by
  refine ⟨?_, ?_, ?_⟩
  · unfold matchSharedAccounts
    simp only [llmMatchUnresolved]
    split
    · simp [llmPass]
    · rfl
  · unfold matchSharedAccounts
    simp only [llmMatchUnresolved]
    split
    · simp [llmPass]
    · rfl
  · unfold matchSharedAccounts
    simp only [llmMatchUnresolved]
    split
    · exact Or.inl rfl
    · exact Or.inr rfl



/-! ## Account-matcher map lemmas -/

theorem mapSet_mem {m : List (String × DiscoveredAccount)} {k : String}
    {v : DiscoveredAccount} {p : String × DiscoveredAccount}
    (h : p ∈ mapSet m k v) : p ∈ m ∨ p = (k, v) := by
  unfold mapSet at h
  split at h
  · rcases List.mem_map.mp h with ⟨q, hq, hfq⟩
    by_cases hqk : q.1 = k
    · right
      rw [if_pos hqk] at hfq
      exact hfq.symm
    · left
      rw [if_neg hqk] at hfq
      exact hfq ▸ hq
  · rcases List.mem_append.mp h with hm | hkv
    · exact Or.inl hm
    · right; simpa using hkv

theorem mapSet_key_preserved {m : List (String × DiscoveredAccount)}
    {k' : String} (k : String) (v : DiscoveredAccount)
    (h : ∃ v', (k', v') ∈ m) : ∃ v', (k', v') ∈ mapSet m k v := by
  obtain ⟨v', hv'⟩ := h
  unfold mapSet
  split
  · by_cases hk : k' = k
    · subst hk
      exact ⟨v, List.mem_map.mpr ⟨(k', v'), hv', by simp⟩⟩
    · exact ⟨v', List.mem_map.mpr ⟨(k', v'), hv', by simp [hk]⟩⟩
  · exact ⟨v', List.mem_append.mpr (Or.inl hv')⟩

theorem mapSet_self_mem (m : List (String × DiscoveredAccount)) (k : String)
    (v : DiscoveredAccount) : ∃ v', (k, v') ∈ mapSet m k v := by
  unfold mapSet
  split
  case isTrue hany =>
    rcases List.any_eq_true.mp hany with ⟨q, hq, hqk⟩
    exact ⟨v, List.mem_map.mpr ⟨q, hq, by simp [of_decide_eq_true hqk]⟩⟩
  case isFalse =>
    exact ⟨v, List.mem_append.mpr (Or.inr (by simp))⟩

theorem buildMapAux_mem :
    ∀ (accounts : List DiscoveredAccount) (m0 : List (String × DiscoveredAccount))
      (p : String × DiscoveredAccount),
      p ∈ accounts.foldl (fun m a => mapSet m (keyOf a) a) m0 →
      p ∈ m0 ∨ (p.2 ∈ accounts ∧ p.1 = keyOf p.2) := by
  intro accounts
  induction accounts with
  | nil => intro m0 p h; exact Or.inl h
  | cons a rest ih =>
    intro m0 p h
    rcases ih (mapSet m0 (keyOf a) a) p h with h0 | hrest
    · rcases mapSet_mem h0 with hm | hkv
      · exact Or.inl hm
      · right
        rw [hkv]
        exact ⟨List.mem_cons_self a rest, rfl⟩
    · exact Or.inr ⟨List.mem_cons_of_mem a hrest.1, hrest.2⟩

theorem buildMap_mem {accounts : List DiscoveredAccount}
    {p : String × DiscoveredAccount} (h : p ∈ buildMap accounts) :
    p.2 ∈ accounts ∧ p.1 = keyOf p.2 := by
  rcases buildMapAux_mem accounts [] p h with h0 | hp
  · simp at h0
  · exact hp

theorem buildMapAux_key_present :
    ∀ (accounts : List DiscoveredAccount) (m0 : List (String × DiscoveredAccount))
      (k : String),
      ((∃ v, (k, v) ∈ m0) ∨ ∃ a ∈ accounts, keyOf a = k) →
      ∃ v, (k, v) ∈ accounts.foldl (fun m a => mapSet m (keyOf a) a) m0 := by
  intro accounts
  induction accounts with
  | nil =>
    intro m0 k h
    rcases h with h | ⟨a, ha, _⟩
    · exact h
    · simp at ha
  | cons a rest ih =>
    intro m0 k h
    rcases h with h0 | ⟨a', ha', hk⟩
    · exact ih _ k (Or.inl (mapSet_key_preserved (keyOf a) a h0))
    · rcases List.mem_cons.mp ha' with rfl | hrest
      · subst hk
        exact ih _ (keyOf a') (Or.inl (mapSet_self_mem m0 (keyOf a') a'))
      · exact ih _ k (Or.inr ⟨a', hrest, hk⟩)

theorem buildMap_key_present {accounts : List DiscoveredAccount}
    {a : DiscoveredAccount} (h : a ∈ accounts) :
    ∃ v, (keyOf a, v) ∈ buildMap accounts :=
  buildMapAux_key_present accounts [] (keyOf a) (Or.inr ⟨a, h, rfl⟩)

theorem lookupMap_mem {m : List (String × DiscoveredAccount)} {k : String}
    {v : DiscoveredAccount} (h : lookupMap m k = some v) : (k, v) ∈ m := by
  unfold lookupMap at h
  cases hf : m.find? (fun p => p.1 = k) with
  | none => rw [hf] at h; simp at h
  | some p =>
    rw [hf] at h
    simp at h
    have hp := List.mem_of_find?_eq_some hf
    have hpk := List.find?_some hf
    have : p.1 = k := by simpa using hpk
    have : p = (k, v) := by
      obtain ⟨p1, p2⟩ := p
      simp at h this
      simp [this, h]
    exact this ▸ hp

theorem lookupMap_isSome {m : List (String × DiscoveredAccount)} {k : String}
    (h : ∃ v, (k, v) ∈ m) : ∃ v, lookupMap m k = some v := by
  obtain ⟨v, hv⟩ := h
  unfold lookupMap
  cases hf : m.find? (fun p => p.1 = k) with
  | none =>
    exfalso
    have := List.find?_eq_none.mp hf (k, v) hv
    simp at this
  | some p => exact ⟨p.2, by simp⟩

/-! ## Matcher pass monotonicity -/

theorem exactPass_matchList_grows (grainMap : List (String × DiscoveredAccount)) :
    ∀ (entries : List (String × DiscoveredAccount)) (st : MatcherState),
      st.matchList <+: (exactPass grainMap entries st).matchList := by
  intro entries
  induction entries with
  | nil => intro st; exact List.prefix_refl _
  | cons e rest ih =>
    intro st
    obtain ⟨k, g⟩ := e
    cases hl : lookupMap grainMap k with
    | none => simpa only [exactPass, hl] using ih st
    | some grain =>
      simp only [exactPass, hl]
      exact (List.prefix_append st.matchList [createMatch g grain "exact" 1]).trans
        (ih ⟨st.usedGong ++ [k], st.usedGrain ++ [k],
          st.matchList ++ [createMatch g grain "exact" 1]⟩)

theorem heuristicPass_matchList_grows
    (grainRemaining : List (String × DiscoveredAccount)) :
    ∀ (entries : List (String × DiscoveredAccount)) (st : MatcherState),
      st.matchList <+: (heuristicPass grainRemaining entries st).matchList := by
  intro entries
  induction entries with
  | nil => intro st; exact List.prefix_refl _
  | cons e rest ih =>
    intro st
    obtain ⟨k, g⟩ := e
    cases hl : bestHeuristicCandidate grainRemaining st.usedGrain k with
    | none => simpa only [heuristicPass, hl] using ih st
    | some p =>
      obtain ⟨bn, bs, ba⟩ := p
      simp only [heuristicPass, hl]
      exact (List.prefix_append st.matchList [createMatch g ba "heuristic" bs]).trans
        (ih ⟨st.usedGong ++ [k], st.usedGrain ++ [bn],
          st.matchList ++ [createMatch g ba "heuristic" bs]⟩)

theorem llmPass_matchList_grows
    (gongMap grainMap : List (String × DiscoveredAccount)) :
    ∀ (lms : List LlmMatch) (st : MatcherState),
      st.matchList <+: (llmPass gongMap grainMap lms st).matchList := by
  intro lms
  induction lms with
  | nil => intro st; exact List.prefix_refl _
  | cons lm rest ih =>
    intro st
    cases hg : lookupMap gongMap lm.gongNormalizedName with
    | none => simpa only [llmPass, hg] using ih st
    | some gong =>
      cases hr : lookupMap grainMap lm.grainNormalizedName with
      | none => simpa only [llmPass, hg, hr] using ih st
      | some grain =>
        simp only [llmPass, hg, hr]
        split
        · exact ih st
        · split
          · exact ih st
          · split
            · exact ih st
            · exact (List.prefix_append st.matchList
                  [createMatch gong grain "llm" lm.confidence lm.canonicalName]).trans
                (ih ⟨st.usedGong ++ [lm.gongNormalizedName],
                  st.usedGrain ++ [lm.grainNormalizedName],
                  st.matchList ++
                    [createMatch gong grain "llm" lm.confidence lm.canonicalName]⟩)

theorem exactPass_mem (grainMap : List (String × DiscoveredAccount)) :
    ∀ (entries : List (String × DiscoveredAccount)) (st : MatcherState)
      (k : String) (g gr : DiscoveredAccount),
      (k, g) ∈ entries → lookupMap grainMap k = some gr →
      createMatch g gr "exact" 1 ∈ (exactPass grainMap entries st).matchList := by
  intro entries
  induction entries with
  | nil => intro st k g gr h _; simp at h
  | cons e rest ih =>
    intro st k g gr hmem hl
    obtain ⟨k', g'⟩ := e
    rcases List.mem_cons.mp hmem with heq | hrest
    · have hk : k' = k := (Prod.mk.injEq _ _ _ _ ▸ heq.symm).1
      have hg : g' = g := (Prod.mk.injEq _ _ _ _ ▸ heq.symm).2
      subst hk hg
      simp only [exactPass, hl]
      refine (exactPass_matchList_grows grainMap rest _).subset ?_
      simp
    · cases hl' : lookupMap grainMap k' with
      | none => simpa only [exactPass, hl'] using ih st k g gr hrest hl
      | some grain' =>
        simp only [exactPass, hl']
        exact ih _ k g gr hrest hl

theorem assignIds_mem :
    ∀ (ms : List SharedAccountOption) (n : Nat) (x : SharedAccountOption),
      x ∈ ms →
      ∃ m ∈ assignIds n ms, m.displayName = x.displayName ∧
        m.gongName = x.gongName ∧ m.grainName = x.grainName ∧
        m.confidence = x.confidence ∧ m.matchReason = x.matchReason := by
  intro ms
  induction ms with
  | nil => intro n x h; simp at h
  | cons y ys ih =>
    intro n x h
    rcases List.mem_cons.mp h with rfl | hys
    · exact ⟨{ x with id := "shared-" ++ toString (n + 1) },
        List.mem_cons_self _ _, rfl, rfl, rfl, rfl, rfl⟩
    · obtain ⟨m, hm, hfields⟩ := ih (n + 1) x hys
      exact ⟨m, List.mem_cons_of_mem _ hm, hfields⟩

theorem finalizeMatches_mem {ms : List SharedAccountOption}
    {x : SharedAccountOption} (h : x ∈ ms) :
    ∃ m ∈ finalizeMatches ms, m.gongName = x.gongName ∧
      m.grainName = x.grainName ∧ m.confidence = x.confidence ∧
      m.matchReason = x.matchReason := by
  have hx : x ∈ stableSortBy matchBefore ms :=
    ((stableSortBy_perm matchBefore ms).mem_iff).mpr h
  obtain ⟨m, hm, _, h2, h3, h4, h5⟩ := assignIds_mem _ 0 x hx
  exact ⟨m, hm, h2, h3, h4, h5⟩

/-- C7: whenever an account from source A and an account from source B
normalize to the same key, any normal completion of `matchSharedAccounts`
(in either input order — the statement quantifies over all inputs) reports a
match with confidence exactly 1 and reason `"exact"` whose raw names are the
names of accounts carrying that same normalized key. -/
theorem exact_match_reported (input : MatcherInput) (outcome : LlmOutcome)
    (ms : List SharedAccountOption) (a b : DiscoveredAccount)
    (ha : a ∈ input.gongAccounts) (hb : b ∈ input.grainAccounts)
    (hk : keyOf a = keyOf b)
    (hres : matchSharedAccounts input outcome = .ok ms) :
    ∃ m ∈ ms, m.confidence = 1 ∧ m.matchReason = "exact" ∧
      (∃ a' ∈ input.gongAccounts, keyOf a' = keyOf a ∧ m.gongName = a'.name) ∧
      (∃ b' ∈ input.grainAccounts, keyOf b' = keyOf b ∧ m.grainName = b'.name) := by
  obtain ⟨g, hg⟩ := buildMap_key_present ha
  have hgrainkey : ∃ v, (keyOf a, v) ∈ buildMap input.grainAccounts := by
    rw [hk]; exact buildMap_key_present hb
  obtain ⟨gr, hgr⟩ := lookupMap_isSome hgrainkey
  have hm1 : createMatch g gr "exact" 1 ∈
      (exactPass (buildMap input.grainAccounts) (buildMap input.gongAccounts)
        ⟨[], [], []⟩).matchList :=
    exactPass_mem _ _ _ _ g gr hg hgr
  have hm2 : createMatch g gr "exact" 1 ∈ (exactHeuristicState input).matchList := by
    unfold exactHeuristicState
    exact (heuristicPass_matchList_grows _ _ _).subset hm1
  have hga := buildMap_mem hg
  have hgra := buildMap_mem (lookupMap_mem hgr)
  have hfields :
      ∀ m' : SharedAccountOption,
        m'.gongName = (createMatch g gr "exact" 1).gongName →
        m'.grainName = (createMatch g gr "exact" 1).grainName →
        m'.confidence = (createMatch g gr "exact" 1).confidence →
        m'.matchReason = (createMatch g gr "exact" 1).matchReason →
        m'.confidence = 1 ∧ m'.matchReason = "exact" ∧
          (∃ a' ∈ input.gongAccounts, keyOf a' = keyOf a ∧ m'.gongName = a'.name) ∧
          (∃ b' ∈ input.grainAccounts, keyOf b' = keyOf b ∧ m'.grainName = b'.name) := by
    intro m' h1 h2 h3 h4
    refine ⟨h3, h4, ⟨g, hga.1, hga.2.symm, h1⟩, ⟨gr, hgra.1, ?_, h2⟩⟩
    rw [← hk]
    exact hgra.2.symm
  unfold matchSharedAccounts at hres
  split at hres
  · split at hres
    next e heq => simp at hres
    next lms heq =>
      simp only [Except.ok.injEq] at hres
      subst hres
      have hm3 : createMatch g gr "exact" 1 ∈
          (llmPass (buildMap input.gongAccounts) (buildMap input.grainAccounts)
            lms (exactHeuristicState input)).matchList :=
        (llmPass_matchList_grows _ _ _ _).subset hm2
      obtain ⟨m, hm, h1, h2, h3, h4⟩ := finalizeMatches_mem hm3
      exact ⟨m, hm, hfields m h1 h2 h3 h4⟩
  · simp only [Except.ok.injEq] at hres
    subst hres
    obtain ⟨m, hm, h1, h2, h3, h4⟩ := finalizeMatches_mem hm2
    exact ⟨m, hm, hfields m h1 h2 h3 h4⟩

/-- Witness for C7 at the repository's own discovery fixture. -/
theorem exact_match_reported_witness :
    ∃ m ∈ [(⟨"shared-1", "Acme Inc", "Acme Inc", "Acme", 4, 3, 1, "exact"⟩ :
        SharedAccountOption)],
      m.confidence = 1 ∧ m.matchReason = "exact" ∧
      (∃ a' ∈ exAcmeGong, keyOf a' = keyOf ⟨"Acme Inc", "acme", "gong", 4⟩ ∧
        m.gongName = a'.name) ∧
      (∃ b' ∈ exAcmeGrain, keyOf b' = keyOf ⟨"Acme", "acme", "grain", 3⟩ ∧
        m.grainName = b'.name) :=
  exact_match_reported ⟨exAcmeGong, exAcmeGrain, none, none⟩ .noContent _
    ⟨"Acme Inc", "acme", "gong", 4⟩ ⟨"Acme", "acme", "grain", 3⟩
    (by decide) (by decide) (by decide) (by decide)



/-! ## Injectivity of the matcher (C3) -/

theorem contains_iff_mem (l : List String) (x : String) :
    l.contains x = true ↔ x ∈ l := by
  simp [List.contains]

theorem TaggedSide_extend {tagOf : SharedAccountOption → String}
    {used : List String} {ms : List SharedAccountOption}
    {x : SharedAccountOption} {k : String}
    (h : TaggedSide tagOf used ms) (hx : tagOf x = k) (hk : k ∉ used) :
    TaggedSide tagOf (used ++ [k]) (ms ++ [x]) := by
  constructor
  · rw [List.map_append, List.nodup_append]
    refine ⟨h.1, by simp, ?_⟩
    intro t ht hts
    simp [hx] at hts
    subst hts
    rcases List.mem_map.mp ht with ⟨m, hm, htag⟩
    exact hk (htag ▸ h.2 m hm)
  · intro m hm
    rcases List.mem_append.mp hm with hms | hx'
    · exact List.mem_append.mpr (Or.inl (h.2 m hms))
    · have : m = x := by simpa using hx'
      subst this
      exact List.mem_append.mpr (Or.inr (by simp [hx]))

theorem mapSet_keys (m : List (String × DiscoveredAccount)) (k : String)
    (v : DiscoveredAccount) :
    (mapSet m k v).map Prod.fst = m.map Prod.fst ∨
      ((mapSet m k v).map Prod.fst = m.map Prod.fst ++ [k] ∧
        k ∉ m.map Prod.fst) := by
  unfold mapSet
  split
  case isTrue hany =>
    left
    rw [List.map_map]
    apply List.map_congr_left
    intro p hp
    by_cases hpk : p.1 = k
    · simp [hpk]
    · simp [hpk]
  case isFalse hany =>
    right
    constructor
    · simp
    · intro hk
      rcases List.mem_map.mp hk with ⟨p, hp, hpk⟩
      exact hany (List.any_eq_true.mpr ⟨p, hp, by simp [hpk]⟩)

theorem buildMapAux_keys_nodup :
    ∀ (accounts : List DiscoveredAccount) (m0 : List (String × DiscoveredAccount)),
      (m0.map Prod.fst).Nodup →
      ((accounts.foldl (fun m a => mapSet m (keyOf a) a) m0).map Prod.fst).Nodup := by
  intro accounts
  induction accounts with
  | nil => intro m0 h; exact h
  | cons a rest ih =>
    intro m0 h
    apply ih
    rcases mapSet_keys m0 (keyOf a) a with heq | ⟨heq, hnk⟩
    · rw [heq]; exact h
    · rw [heq, List.nodup_append]
      exact ⟨h, by simp, by intro t ht hts; simp at hts; subst hts; exact hnk ht⟩

theorem buildMap_keys_nodup (accounts : List DiscoveredAccount) :
    ((buildMap accounts).map Prod.fst).Nodup :=
  buildMapAux_keys_nodup accounts [] (by simp)

theorem buildMap_tag (accounts : List DiscoveredAccount)
    (H : ∀ a ∈ accounts,
      a.normalizedName = "" ∨ a.normalizedName = normalizeAccountName a.name) :
    ∀ p ∈ buildMap accounts, p.1 = normalizeAccountName p.2.name := by
  intro p hp
  obtain ⟨hmem, hkey⟩ := buildMap_mem hp
  rw [hkey]
  unfold keyOf
  rcases H p.2 hmem with h0 | h1
  · rw [if_pos h0]
  · split
    · rfl
    · exact h1

theorem bestHeuristicFold_spec (usedGrain : List String) (gongNormalized : String)
    (Q : String → DiscoveredAccount → Prop) :
    ∀ (l : List (String × DiscoveredAccount))
      (acc : Option (String × ℚ × DiscoveredAccount)),
      (∀ p ∈ l, usedGrain.contains p.1 = false → Q p.1 p.2) →
      (∀ n s a, acc = some (n, s, a) → Q n a) →
      ∀ bn bs ba,
        bestHeuristicFold usedGrain gongNormalized l acc = some (bn, bs, ba) →
        Q bn ba := by
  intro l
  induction l with
  | nil =>
    intro acc _ hacc bn bs ba h
    exact hacc bn bs ba h
  | cons p rest ih =>
    intro acc hl hacc bn bs ba h
    have hrest : ∀ q ∈ rest, usedGrain.contains q.1 = false → Q q.1 q.2 :=
      fun q hq => hl q (List.mem_cons_of_mem p hq)
    cases acc with
    | none =>
      simp only [bestHeuristicFold] at h
      split at h
      · exact ih none hrest hacc bn bs ba h
      next hcont =>
        have hcf : usedGrain.contains p.1 = false := by
          cases hc2 : usedGrain.contains p.1
          · rfl
          · exact absurd hc2 hcont
        have hp : Q p.1 p.2 := hl p (List.mem_cons_self p rest) hcf
        split at h
        · exact ih none hrest hacc bn bs ba h
        · refine ih _ hrest (fun n s a hsome => ?_) bn bs ba h
          cases hsome
          exact hp
    | some b3 =>
      obtain ⟨n0, s0, a0⟩ := b3
      simp only [bestHeuristicFold] at h
      split at h
      · exact ih _ hrest hacc bn bs ba h
      next hcont =>
        have hcf : usedGrain.contains p.1 = false := by
          cases hc2 : usedGrain.contains p.1
          · rfl
          · exact absurd hc2 hcont
        have hp : Q p.1 p.2 := hl p (List.mem_cons_self p rest) hcf
        split at h
        · exact ih _ hrest hacc bn bs ba h
        · split at h
          · refine ih _ hrest (fun n s a hsome => ?_) bn bs ba h
            cases hsome
            exact hp
          · refine ih _ hrest (fun n s a hsome => ?_) bn bs ba h
            cases hsome
            exact hacc n0 s0 a0 rfl

theorem bestHeuristicCandidate_mem
    (grainRemaining : List (String × DiscoveredAccount))
    (usedGrain : List String) (gongNormalized : String) (bn : String) (bs : ℚ)
    (ba : DiscoveredAccount)
    (h : bestHeuristicCandidate grainRemaining usedGrain gongNormalized
        = some (bn, bs, ba)) :
    (bn, ba) ∈ grainRemaining ∧ usedGrain.contains bn = false := by
  refine bestHeuristicFold_spec usedGrain gongNormalized
    (fun n a => (n, a) ∈ grainRemaining ∧ usedGrain.contains n = false)
    grainRemaining none ?_ (fun n s a h' => by cases h') bn bs ba h
  intro p hp hcf
  exact ⟨by simpa using hp, hcf⟩

theorem exactPass_tagged (grainMap : List (String × DiscoveredAccount))
    (hRmap : ∀ p ∈ grainMap, p.1 = normalizeAccountName p.2.name) :
    ∀ (entries : List (String × DiscoveredAccount)) (st : MatcherState),
      (∀ p ∈ entries, p.1 = normalizeAccountName p.2.name) →
      (entries.map Prod.fst).Nodup →
      (∀ p ∈ entries, p.1 ∉ st.usedGong) →
      (∀ p ∈ entries, p.1 ∉ st.usedGrain) →
      TaggedSide gTag st.usedGong st.matchList →
      TaggedSide rTag st.usedGrain st.matchList →
      TaggedSide gTag (exactPass grainMap entries st).usedGong
          (exactPass grainMap entries st).matchList ∧
        TaggedSide rTag (exactPass grainMap entries st).usedGrain
          (exactPass grainMap entries st).matchList := by
  intro entries
  induction entries with
  | nil => intro st _ _ _ _ hg hr; exact ⟨hg, hr⟩
  | cons e rest ih =>
    intro st hE hN hUg hUr hg hr
    obtain ⟨k, g⟩ := e
    have hEr : ∀ p ∈ rest, p.1 = normalizeAccountName p.2.name :=
      fun p hp => hE p (List.mem_cons_of_mem _ hp)
    have hNr : (rest.map Prod.fst).Nodup := (List.nodup_cons.mp hN).2
    have hkrest : ∀ p ∈ rest, p.1 ≠ k := by
      intro p hp hpk
      apply (List.nodup_cons.mp hN).1
      rw [← hpk]
      exact List.mem_map.mpr ⟨p, hp, rfl⟩
    cases hl : lookupMap grainMap k with
    | none =>
      simp only [exactPass, hl]
      exact ih st hEr hNr (fun p hp => hUg p (List.mem_cons_of_mem _ hp))
        (fun p hp => hUr p (List.mem_cons_of_mem _ hp)) hg hr
    | some grain =>
      simp only [exactPass, hl]
      apply ih _ hEr hNr
      · intro p hp hmem
        rcases List.mem_append.mp hmem with hold | hnew
        · exact hUg p (List.mem_cons_of_mem _ hp) hold
        · exact hkrest p hp (by simpa using hnew)
      · intro p hp hmem
        rcases List.mem_append.mp hmem with hold | hnew
        · exact hUr p (List.mem_cons_of_mem _ hp) hold
        · exact hkrest p hp (by simpa using hnew)
      · refine TaggedSide_extend hg ?_ (hUg (k, g) (List.mem_cons_self _ _))
        show normalizeAccountName g.name = k
        exact (hE (k, g) (List.mem_cons_self _ _)).symm
      · refine TaggedSide_extend hr ?_ (hUr (k, g) (List.mem_cons_self _ _))
        show normalizeAccountName grain.name = k
        exact (hRmap (k, grain) (lookupMap_mem hl)).symm

theorem heuristicPass_tagged (grainRemaining : List (String × DiscoveredAccount))
    (hRrem : ∀ p ∈ grainRemaining, p.1 = normalizeAccountName p.2.name) :
    ∀ (entries : List (String × DiscoveredAccount)) (st : MatcherState),
      (∀ p ∈ entries, p.1 = normalizeAccountName p.2.name) →
      (entries.map Prod.fst).Nodup →
      (∀ p ∈ entries, p.1 ∉ st.usedGong) →
      TaggedSide gTag st.usedGong st.matchList →
      TaggedSide rTag st.usedGrain st.matchList →
      TaggedSide gTag (heuristicPass grainRemaining entries st).usedGong
          (heuristicPass grainRemaining entries st).matchList ∧
        TaggedSide rTag (heuristicPass grainRemaining entries st).usedGrain
          (heuristicPass grainRemaining entries st).matchList := by
  intro entries
  induction entries with
  | nil => intro st _ _ _ hg hr; exact ⟨hg, hr⟩
  | cons e rest ih =>
    intro st hE hN hUg hg hr
    obtain ⟨k, g⟩ := e
    have hEr : ∀ p ∈ rest, p.1 = normalizeAccountName p.2.name :=
      fun p hp => hE p (List.mem_cons_of_mem _ hp)
    have hNr : (rest.map Prod.fst).Nodup := (List.nodup_cons.mp hN).2
    have hkrest : ∀ p ∈ rest, p.1 ≠ k := by
      intro p hp hpk
      apply (List.nodup_cons.mp hN).1
      rw [← hpk]
      exact List.mem_map.mpr ⟨p, hp, rfl⟩
    cases hb : bestHeuristicCandidate grainRemaining st.usedGrain k with
    | none =>
      simp only [heuristicPass, hb]
      exact ih st hEr hNr (fun p hp => hUg p (List.mem_cons_of_mem _ hp)) hg hr
    | some best3 =>
      obtain ⟨bn, bs, ba⟩ := best3
      obtain ⟨hbmem, hbfree⟩ :=
        bestHeuristicCandidate_mem grainRemaining st.usedGrain k bn bs ba hb
      simp only [heuristicPass, hb]
      apply ih _ hEr hNr
      · intro p hp hmem
        rcases List.mem_append.mp hmem with hold | hnew
        · exact hUg p (List.mem_cons_of_mem _ hp) hold
        · exact hkrest p hp (by simpa using hnew)
      · refine TaggedSide_extend hg ?_ (hUg (k, g) (List.mem_cons_self _ _))
        show normalizeAccountName g.name = k
        exact (hE (k, g) (List.mem_cons_self _ _)).symm
      · refine TaggedSide_extend hr ?_ ?_
        · show normalizeAccountName ba.name = bn
          exact (hRrem (bn, ba) hbmem).symm
        · intro hmem
          rw [← contains_iff_mem] at hmem
          rw [hbfree] at hmem
          cases hmem

theorem llmPass_tagged (gongMap grainMap : List (String × DiscoveredAccount))
    (hGmap : ∀ p ∈ gongMap, p.1 = normalizeAccountName p.2.name)
    (hRmap : ∀ p ∈ grainMap, p.1 = normalizeAccountName p.2.name) :
    ∀ (lms : List LlmMatch) (st : MatcherState),
      TaggedSide gTag st.usedGong st.matchList →
      TaggedSide rTag st.usedGrain st.matchList →
      TaggedSide gTag (llmPass gongMap grainMap lms st).usedGong
          (llmPass gongMap grainMap lms st).matchList ∧
        TaggedSide rTag (llmPass gongMap grainMap lms st).usedGrain
          (llmPass gongMap grainMap lms st).matchList := by
  intro lms
  induction lms with
  | nil => intro st hg hr; exact ⟨hg, hr⟩
  | cons lm rest ih =>
    intro st hg hr
    cases hgl : lookupMap gongMap lm.gongNormalizedName with
    | none => simpa only [llmPass, hgl] using ih st hg hr
    | some gong =>
      cases hrl : lookupMap grainMap lm.grainNormalizedName with
      | none => simpa only [llmPass, hgl, hrl] using ih st hg hr
      | some grain =>
        simp only [llmPass, hgl, hrl]
        split
        · exact ih st hg hr
        next hgu =>
          split
          · exact ih st hg hr
          next hru =>
            split
            · exact ih st hg hr
            · apply ih
              · refine TaggedSide_extend hg ?_ ?_
                · show normalizeAccountName gong.name = lm.gongNormalizedName
                  exact (hGmap _ (lookupMap_mem hgl)).symm
                · intro hmem
                  exact hgu (by rw [contains_iff_mem]; exact hmem)
              · refine TaggedSide_extend hr ?_ ?_
                · show normalizeAccountName grain.name = lm.grainNormalizedName
                  exact (hRmap _ (lookupMap_mem hrl)).symm
                · intro hmem
                  exact hru (by rw [contains_iff_mem]; exact hmem)

theorem assignIds_map_names :
    ∀ (ms : List SharedAccountOption) (n : Nat),
      (assignIds n ms).map (fun m => m.gongName)
          = ms.map (fun m => m.gongName) ∧
        (assignIds n ms).map (fun m => m.grainName)
          = ms.map (fun m => m.grainName) := by
  intro ms
  induction ms with
  | nil => intro n; exact ⟨rfl, rfl⟩
  | cons y ys ih =>
    intro n
    obtain ⟨h1, h2⟩ := ih (n + 1)
    simp [assignIds, h1, h2]

theorem finalize_nodup_names {L : List SharedAccountOption}
    (hg : (L.map gTag).Nodup) (hr : (L.map rTag).Nodup) :
    ((finalizeMatches L).map (fun m => m.gongName)).Nodup ∧
      ((finalizeMatches L).map (fun m => m.grainName)).Nodup := by
  have hgname : (L.map (fun m => m.gongName)).Nodup := by
    refine List.Nodup.of_map normalizeAccountName ?_
    have hmm : L.map gTag
        = (L.map (fun m => m.gongName)).map normalizeAccountName := by
      rw [List.map_map]
      rfl
    exact hmm ▸ hg
  have hrname : (L.map (fun m => m.grainName)).Nodup := by
    refine List.Nodup.of_map normalizeAccountName ?_
    have hmm : L.map rTag
        = (L.map (fun m => m.grainName)).map normalizeAccountName := by
      rw [List.map_map]
      rfl
    exact hmm ▸ hr
  obtain ⟨ha1, ha2⟩ := assignIds_map_names (stableSortBy matchBefore L) 0
  constructor
  · rw [finalizeMatches, ha1]
    exact (((stableSortBy_perm matchBefore L).map (fun m => m.gongName)).symm).nodup hgname
  · rw [finalizeMatches, ha2]
    exact (((stableSortBy_perm matchBefore L).map (fun m => m.grainName)).symm).nodup hrname

/-- C3 (amended): whenever every input account's `normalizedName` is either
blank or the normalization of its own raw name (which is how discovery
produces it), no raw account name from either source appears in more than
one returned `SharedAccountOption`: every normal completion of
`matchSharedAccounts` consumes each source's normalized key — and hence each
raw name — at most once.  (For adversarial inputs whose pre-set
`normalizedName` fields disagree with their raw names the raw-name reading
fails, see `match_raw_name_duplicated_cex`.) -/
theorem match_names_injective (input : MatcherInput) (outcome : LlmOutcome)
    (ms : List SharedAccountOption)
    (hgacc : ∀ a ∈ input.gongAccounts,
      a.normalizedName = "" ∨ a.normalizedName = normalizeAccountName a.name)
    (hracc : ∀ a ∈ input.grainAccounts,
      a.normalizedName = "" ∨ a.normalizedName = normalizeAccountName a.name)
    (hres : matchSharedAccounts input outcome = .ok ms) :
    (ms.map (fun m => m.gongName)).Nodup ∧
      (ms.map (fun m => m.grainName)).Nodup := by
  have hGmap := buildMap_tag input.gongAccounts hgacc
  have hRmap := buildMap_tag input.grainAccounts hracc
  have h1 := exactPass_tagged (buildMap input.grainAccounts) hRmap
      (buildMap input.gongAccounts) ⟨[], [], []⟩ hGmap (buildMap_keys_nodup _)
      (by intro p _ hmem; cases hmem) (by intro p _ hmem; cases hmem)
      ⟨by simp, by intro m hm; cases hm⟩ ⟨by simp, by intro m hm; cases hm⟩
  have h2 := heuristicPass_tagged
      ((buildMap input.grainAccounts).filter
        (fun p => ¬ (exactPass (buildMap input.grainAccounts)
          (buildMap input.gongAccounts) ⟨[], [], []⟩).usedGrain.contains p.1))
      (fun p hp => hRmap p (List.mem_filter.mp hp).1)
      ((buildMap input.gongAccounts).filter
        (fun p => ¬ (exactPass (buildMap input.grainAccounts)
          (buildMap input.gongAccounts) ⟨[], [], []⟩).usedGong.contains p.1))
      (exactPass (buildMap input.grainAccounts)
        (buildMap input.gongAccounts) ⟨[], [], []⟩)
      (fun p hp => hGmap p (List.mem_filter.mp hp).1)
      (List.Nodup.sublist
        (List.Sublist.map Prod.fst (List.filter_sublist _))
        (buildMap_keys_nodup input.gongAccounts))
      (by
        intro p hp hmem
        have hpred := (List.mem_filter.mp hp).2
        simp only [decide_eq_true_eq] at hpred
        exact hpred ((contains_iff_mem _ _).mpr hmem))
      h1.1 h1.2
  have hst2 : exactHeuristicState input
      = heuristicPass
          ((buildMap input.grainAccounts).filter
            (fun p => ¬ (exactPass (buildMap input.grainAccounts)
              (buildMap input.gongAccounts) ⟨[], [], []⟩).usedGrain.contains p.1))
          ((buildMap input.gongAccounts).filter
            (fun p => ¬ (exactPass (buildMap input.grainAccounts)
              (buildMap input.gongAccounts) ⟨[], [], []⟩).usedGong.contains p.1))
          (exactPass (buildMap input.grainAccounts)
            (buildMap input.gongAccounts) ⟨[], [], []⟩) := rfl
  rw [← hst2] at h2
  unfold matchSharedAccounts at hres
  split at hres
  · split at hres
    next e heq => simp at hres
    next lms heq =>
      simp only [Except.ok.injEq] at hres
      subst hres
      have h3 := llmPass_tagged (buildMap input.gongAccounts)
        (buildMap input.grainAccounts) hGmap hRmap lms
        (exactHeuristicState input) h2.1 h2.2
      exact finalize_nodup_names h3.1.1 h3.2.1
  · simp only [Except.ok.injEq] at hres
    subst hres
    exact finalize_nodup_names h2.1.1 h2.2.1

/-- Counterexample to C3 as stated for arbitrary inputs: two Gong accounts
(and two Grain accounts) sharing the raw name `"X"` but carrying distinct
pre-set `normalizedName` keys (`"k1"`, `"k2"`) produce two exact matches
that both consume the raw name `"X"` on each side. -/
theorem match_raw_name_duplicated_cex :
    (matchSharedAccounts ⟨exDupGong, exDupGrain, none, none⟩ .noContent).toOption.map
        (fun ms => ms.map (fun m => m.gongName)) = some ["X", "X"] ∧
      ¬ (["X", "X"] : List String).Nodup := by decide

/-- Witness for C3 (amended) at the repository's discovery fixture. -/
theorem match_names_injective_witness :
    (([⟨"shared-1", "Acme Inc", "Acme Inc", "Acme", 4, 3, 1, "exact"⟩] :
        List SharedAccountOption).map (fun m => m.gongName)).Nodup ∧
      (([⟨"shared-1", "Acme Inc", "Acme Inc", "Acme", 4, 3, 1, "exact"⟩] :
        List SharedAccountOption).map (fun m => m.grainName)).Nodup :=
  match_names_injective ⟨exAcmeGong, exAcmeGrain, none, none⟩ .noContent _
    (by decide) (by decide) (by decide)



/-! ## Evidence admissibility (C1) -/

theorem dedupeQuotesGo_subset :
    ∀ (l : List QuoteEvidence) (seen : List String) (q : QuoteEvidence),
      q ∈ dedupeQuotesGo seen l → q ∈ l := by
  intro l
  induction l with
  | nil => intro seen q h; cases h
  | cons x xs ih =>
    intro seen q h
    simp only [dedupeQuotesGo] at h
    split at h
    · exact List.mem_cons_of_mem x (ih _ q h)
    · rcases List.mem_cons.mp h with rfl | hxs
      · exact List.mem_cons_self _ _
      · exact List.mem_cons_of_mem x (ih _ q hxs)

/-- C1 (amended): every quote admitted by the extractor has a normalized
text of length at least 16 that occurs as a substring of the normalized
transcript of the call it was extracted from — the call whose title and
date it is attributed to.  (Its `sourceCallId` field, however, is the
extractor-supplied id — defaulting to that call's `providerCallId` only
when blank — and may name a different call, see
`quote_misattributed_sourceCallId_cex`.) -/
theorem admitted_quotes_verbatim (inputs : List (CanonicalCall × List RawQuote))
    (q : QuoteEvidence) (hq : q ∈ extractQuotes inputs) :
    ∃ pr ∈ inputs,
      16 ≤ (normalizeQ q.quote).length ∧
        strIncludes (normalizeQ pr.1.transcriptText) (normalizeQ q.quote) = true ∧
        q.sourceCallTitle = pr.1.title ∧
        q.sourceCallDate = pr.1.occurredAt := by
  have hq2 : q ∈ inputs.flatMap (fun p => validatedQuotesFor p.1 p.2) :=
    dedupeQuotesGo_subset _ [] q hq
  rcases List.mem_flatMap.mp hq2 with ⟨p, hp, hqp⟩
  rcases List.mem_map.mp hqp with ⟨rq, hrq, hattr⟩
  have hpass : quoteAppearsInTranscript rq.quote p.1.transcriptText = true :=
    (List.mem_filter.mp hrq).2
  simp only [quoteAppearsInTranscript, Bool.and_eq_true, decide_eq_true_eq]
    at hpass
  subst hattr
  exact ⟨p, hp, hpass.1, hpass.2, rfl, rfl⟩

/-- Counterexample to C1 as stated: the extractor echoes a `sourceCallId`
of its own choosing.  Here the quote is validated against `exQuoteCall`'s
transcript (id `"c1"`) but the reply claims `sourceCallId` `"c2"` — the id
of `exOtherCall`, whose transcript does not contain the quote — and the
admitted `QuoteEvidence` carries that wrong id. -/
theorem quote_misattributed_sourceCallId_cex :
    ((extractQuotes [(exQuoteCall, [exMisattributedQuote]), (exOtherCall, [])]).map
        (fun q => q.sourceCallId)) = ["c2"] ∧
      exOtherCall.providerCallId = "c2" ∧
      (∀ q ∈ extractQuotes [(exQuoteCall, [exMisattributedQuote]), (exOtherCall, [])],
        quoteAppearsInTranscript q.quote exOtherCall.transcriptText = false) := by
  decide

/-- Witness for C1 (amended) at a concrete extraction. -/
theorem admitted_quotes_verbatim_witness :
    ∃ pr ∈ [(exQuoteCall, [exHonestQuote])],
      16 ≤ (normalizeQ exWitnessQuote.quote).length ∧
        strIncludes (normalizeQ pr.1.transcriptText)
          (normalizeQ exWitnessQuote.quote) = true ∧
        exWitnessQuote.sourceCallTitle = pr.1.title ∧
        exWitnessQuote.sourceCallDate = pr.1.occurredAt :=
  admitted_quotes_verbatim [(exQuoteCall, [exHonestQuote])] exWitnessQuote
    (by decide)



/-! ## Fuzzy account resolution thresholds (C8) -/

theorem scoreBefore_asymm : ∀ a b : SharedAccountOption × ℚ,
    scoreBefore a b = true → scoreBefore b a = false := by
  intro a b h
  simp only [scoreBefore, decide_eq_true_eq] at h
  simp only [scoreBefore, decide_eq_false_iff_not]
  exact lt_asymm h

theorem scoreBefore_trans_flip : ∀ a b c : SharedAccountOption × ℚ,
    scoreBefore b a = false → scoreBefore c b = false → scoreBefore c a = false := by
  intro a b c hab hbc
  simp only [scoreBefore, decide_eq_false_iff_not, not_lt] at hab hbc ⊢
  exact hbc.trans hab

/-- C8: with at least one discovered shared account and no exact
normalized-name match, `resolveSelectedAccount` ranks every candidate by its
blended similarity score (descending; the head of the ranking is maximal),
accepts the top-ranked candidate **iff** its score is ≥ 0.82, or is ≥ 0.72
and leads the runner-up by a gap of ≥ 0.08 (a lone candidate has gap 1);
otherwise it fails carrying the top-5 scored candidates as suggestions. -/
theorem fuzzy_resolution_threshold (requested : String)
    (accounts : List SharedAccountOption)
    (ranked : List (SharedAccountOption × ℚ))
    (best : SharedAccountOption × ℚ) (rest : List (SharedAccountOption × ℚ))
    (hne : accounts ≠ [])
    (hnoexact : ∀ acc ∈ accounts,
      exactNameMatch (normalizeAccountName requested) acc = false)
    (hranked : rankCandidates (normalizeAccountName requested) accounts = ranked)
    (hsplit : ranked = best :: rest) :
    (∀ p ∈ ranked, p.2 ≤ best.2) ∧
      (resolveSelectedAccount requested accounts
          = .ok (toSelectedAccount best.1) ↔
        (Rat.divInt 82 100 ≤ best.2 ∨
          (Rat.divInt 72 100 ≤ best.2 ∧
            Rat.divInt 8 100 ≤ scoreGapOf best rest))) ∧
      (¬ (Rat.divInt 82 100 ≤ best.2 ∨
          (Rat.divInt 72 100 ≤ best.2 ∧
            Rat.divInt 8 100 ≤ scoreGapOf best rest)) →
        resolveSelectedAccount requested accounts
          = .error (.noMatch (ranked.take 5))) := by
  have hlen : ¬ accounts.length = 0 := by
    intro h0
    exact hne (List.length_eq_zero.mp h0)
  have hfind : accounts.find? (exactNameMatch (normalizeAccountName requested))
      = none :=
    List.find?_eq_none.mpr (fun acc hacc => by rw [hnoexact acc hacc]; simp)
  have hsorted : SortedB scoreBefore ranked := by
    rw [← hranked]
    exact stableSortBy_sortedB scoreBefore scoreBefore_asymm _
  have hmax : ∀ p ∈ ranked, p.2 ≤ best.2 := by
    intro p hp
    rw [hsplit] at hp hsorted
    rcases List.mem_cons.mp hp with rfl | hrest
    · exact le_refl _
    · have := sortedB_head_le scoreBefore scoreBefore_trans_flip best rest
        hsorted p hrest
      simpa [scoreBefore, not_lt] using this
  have hres : resolveSelectedAccount requested accounts
      = if Rat.divInt 82 100 ≤ best.2 ∨
            (Rat.divInt 72 100 ≤ best.2 ∧
              Rat.divInt 8 100 ≤ scoreGapOf best rest) then
          .ok (toSelectedAccount best.1)
        else .error (.noMatch (ranked.take 5)) := by
    unfold resolveSelectedAccount
    rw [if_neg hlen, hfind, hranked, hsplit]
  refine ⟨hmax, ?_, ?_⟩
  · rw [hres]
    by_cases hcond : Rat.divInt 82 100 ≤ best.2 ∨
        (Rat.divInt 72 100 ≤ best.2 ∧ Rat.divInt 8 100 ≤ scoreGapOf best rest)
    · simp [hcond]
    · simp only [if_neg hcond]
      constructor
      · intro h; cases h
      · intro h; exact absurd h hcond
  · intro hcond
    rw [hres, if_neg hcond]

/-- Witness for C8 at a concrete ambiguous-free resolution: requested name
`"acme corp"`, candidates scoring 1 and 0.9. -/
theorem fuzzy_resolution_threshold_witness :
    (∀ p ∈ [(exResolveAcme, (1 : ℚ)), (exResolveAcmeo, Rat.divInt 9 10)],
        p.2 ≤ (1 : ℚ)) ∧
      (resolveSelectedAccount "acme corp" [exResolveAcme, exResolveAcmeo]
          = .ok (toSelectedAccount exResolveAcme) ↔
        (Rat.divInt 82 100 ≤ (1 : ℚ) ∨
          (Rat.divInt 72 100 ≤ (1 : ℚ) ∧
            Rat.divInt 8 100 ≤ scoreGapOf (exResolveAcme, 1)
              [(exResolveAcmeo, Rat.divInt 9 10)]))) ∧
      (¬ (Rat.divInt 82 100 ≤ (1 : ℚ) ∨
          (Rat.divInt 72 100 ≤ (1 : ℚ) ∧
            Rat.divInt 8 100 ≤ scoreGapOf (exResolveAcme, 1)
              [(exResolveAcmeo, Rat.divInt 9 10)])) →
        resolveSelectedAccount "acme corp" [exResolveAcme, exResolveAcmeo]
          = .error (.noMatch ([(exResolveAcme, (1 : ℚ)),
              (exResolveAcmeo, Rat.divInt 9 10)].take 5))) :=
  fuzzy_resolution_threshold "acme corp" [exResolveAcme, exResolveAcmeo]
    [(exResolveAcme, 1), (exResolveAcmeo, Rat.divInt 9 10)]
    (exResolveAcme, 1) [(exResolveAcmeo, Rat.divInt 9 10)]
    (by decide) (by decide) (by decide) (by decide)


end CallCase
